import Mathlib

/-!
Verification of the HAMT (hash array mapped trie) persistent map/set from
`src/src/hamt.rs`, against its natural-language specification.

The first part is a shallow embedding of the code that is actually present in
`src/src/hamt.rs` (the constant `LOG_UINT_SIZE` for `target_word_size = "64"`,
the function `split_hash`, the node type `HAMT` and the lookup loop
`HAMT::find`).  Machine integers (`u64`, `uint`) are modelled as `Nat` with
explicit `% 2^64` truncation where the code can overflow; the fixed-size
arrays of the sketch (`[Bucket<K,V>, ..uint::max_value]`,
`[@HAMT<K,V>, ..uint::bits]`) are modelled as lists, indexing past the end
yielding `none` (in the code this would be an out-of-bounds panic; the arm is
unreachable for length-64 child arrays whenever the bitset guard passed).

The second part models the parts of the system that the repository's source
sketch does not contain (the trie-engine `insert`/`remove`/`iterate`, the
`Map` wrapper's operations including its optional root and size bookkeeping,
and the `Set` iteration) from the specification, and proves the round-trip,
size, snapshot, error-handling and set-algebra claims against that model.
-/

set_option autoImplicit false

namespace Puc

/-- Embedding of `LOG_UINT_SIZE` for `target_word_size = "64"` (src/src/hamt.rs). -/
def LOG_UINT_SIZE : Nat := 6

/-- Value of `uint::bits` on a 64-bit target: the trie's branch factor. -/
def uintBits : Nat := 64

/-- Value of `uint::max_value` on a 64-bit target. -/
def uintMaxValue : Nat := 2 ^ 64 - 1

/-- Embedding of `split_hash` from src/src/hamt.rs:
`(h as uint & ((uint::max_value - 1) >> 1), h >> LOG_UINT_SIZE)`.
The cast `h as uint` is the identity on a 64-bit target. -/
def split_hash (h : Nat) : Nat × Nat :=
  (h &&& ((uintMaxValue - 1) >>> 1), h >>> LOG_UINT_SIZE)

/-- Embedding of `struct Bucket<K,V> { key: K, value: V }`. -/
structure Bucket (K V : Type) where
  key : K
  value : V

/-- Embedding of `enum HAMT<K,V>`: a `Buckets` node stores a `u64` full hash
and the collision entries; a `Branches` node stores a `uint` bitset and the
child nodes (a fixed 64-entry array in the sketch, a list here). -/
inductive HAMT (K V : Type) where
  | Buckets : Nat → List (Bucket K V) → HAMT K V
  | Branches : Nat → List (HAMT K V) → HAMT K V

variable {K V : Type} [DecidableEq K]

mutual

/-- Embedding of the loop body of `HAMT::find`, carrying the original `hash`
and the mutable `partial` residual (`part` here).  The Rust guard is
`bitset & (1u << partial)`; a shift by 64 or more overflows the machine word,
modelled as truncation `% 2^64`.  `branches[index]` is delegated to
`findIdx`. -/
def findLoop : HAMT K V → K → Nat → Nat → Option V
  | .Buckets h buckets, key, hash, _ =>
      if h = hash then
        (buckets.find? (fun b => decide (key = b.key))).map (fun b => b.value)
      else none
  | .Branches bitset branches, key, hash, part =>
      if bitset &&& ((1 <<< part) % 2 ^ 64) = 0 then none
      else findIdx branches (split_hash part).1 key hash (split_hash part).2

/-- Embedding of the array access `branches[index]` followed by continuing the
loop: walk to position `index` and keep searching there.  Falling off the end
(an out-of-bounds panic in the code, unreachable for 64-entry child arrays
when the bitset guard passed) yields `none`. -/
def findIdx : List (HAMT K V) → Nat → K → Nat → Nat → Option V
  | [], _, _, _, _ => none
  | c :: _, 0, key, hash, p => findLoop c key hash p
  | _ :: cs, n + 1, key, hash, p => findIdx cs n key hash p

end

/-- Embedding of `HAMT::find(@self, key, hash)`: the loop starts with
`current = self` and `partial = hash`. -/
def HAMT.find (t : HAMT K V) (key : K) (hash : Nat) : Option V :=
  findLoop t key hash hash

mutual

/-- Height of a trie node: `Buckets` nodes are leaves of the loop, each
`Branches` node adds one level. -/
def heightH : HAMT K V → Nat
  | .Buckets _ _ => 0
  | .Branches _ cs => heightList cs + 1

/-- Maximum height over a list of child nodes. -/
def heightList : List (HAMT K V) → Nat
  | [] => 0
  | c :: cs => max (heightH c) (heightList cs)

end

/-- Fuel-indexed version of the `HAMT::find` loop: `none` means the fuel ran
out before the loop finished, `some r` means the loop finished with result
`r`.  One unit of fuel is consumed per iteration of the loop. -/
def findFuel : Nat → HAMT K V → K → Nat → Nat → Option (Option V)
  | 0, _, _, _, _ => none
  | fuel + 1, t, key, hash, part =>
    match t with
    | .Buckets h buckets =>
        some (if h = hash then
          (buckets.find? (fun b => decide (key = b.key))).map (fun b => b.value)
        else none)
    | .Branches bitset branches =>
        if bitset &&& ((1 <<< part) % 2 ^ 64) = 0 then some none
        else
          match branches[(split_hash part).1]? with
          | none => some none
          | some c => findFuel fuel c key hash (split_hash part).2

/-- Concrete trie used to exhibit the bit-test defect in `HAMT::find`: a
single `Branches` node whose bitset is 1 (only bit 0 set), whose slot-0 child
is a bucket with full hash 64 holding the entry `(5, 7)`; the remaining 63
array slots are padding (the sketch's child arrays have `uint::bits`
slots). -/
def branchBitZero : HAMT Nat Nat :=
  .Branches 1 (HAMT.Buckets 64 [⟨5, 7⟩] :: List.replicate 63 (HAMT.Buckets 0 []))

/-! ### Spec-modelled trie engine

The repository's source contains only the lookup loop; `insert`, `remove`,
`iterate`, the `Map` wrapper's operations (its `find` refers to helpers that
are not in the repository) and the `Set` iteration are missing.  They are
modelled here from the specification (§3, §4.2–§4.4): branch nodes carry a
64-bit bitmap and a *dense* child array ordered by bit index, accessed by
popcount indexing, and the hash splitter of §4.1 (index = low 6 bits of the
residual, remaining = residual shifted right by 6). -/

/-- Modelled from the spec (§4.1): number of trie levels before a 64-bit hash
is fully consumed, `ceil(64 / 6) = 11`. -/
def maxDepth : Nat := 11

/-- Modelled from the spec (§4.1): the 6-bit chunk of `hash` consumed at
level `d` — the low 6 bits of the hash already shifted by `6*d` bits. -/
def chunkAt (hash d : Nat) : Nat := hash / 64 ^ d % 64

/-- Number of set bits of `bm` at positions strictly below `i` (popcount
indexing, spec §3: the slot of bit `i` in the dense child array). -/
def popCnt (bm : Nat) : Nat → Nat
  | 0 => 0
  | i + 1 => popCnt bm i + (if bm.testBit i then 1 else 0)

/-- Clearing bit `i` of a 64-bit bitmap: `bitmap & !(1 << i)`, the `u64`
complement written as xor with the all-ones word. -/
def clearBit64 (bm i : Nat) : Nat := bm &&& (uintMaxValue ^^^ (1 <<< i))

/-- Modelled from the spec (§3): the trie node — a `bucket` holds the full
64-bit hash and the collision entries, a `branch` holds the bitmap of
occupied slots and the dense, bit-index-ordered child array. -/
inductive Node (K V : Type) where
  | bucket : Nat → List (K × V) → Node K V
  | branch : Nat → List (Node K V) → Node K V

section SpecEngine

variable {K V : Type} [DecidableEq K]

mutual

/-- Modelled from the spec (§4.2 lookup): descend from the node at level `d`;
at a branch, if the bitmap bit for the current chunk is unset the key is
absent, otherwise recurse into the corresponding child (popcount position in
the dense array) one level deeper; at a bucket, compare the stored full hash
with the key's full hash and scan the entries linearly for key equality. -/
def lookupN : Node K V → K → Nat → Nat → Option V
  | .bucket h es, k, hash, _ =>
      if h = hash then (es.find? (fun p => decide (p.1 = k))).map Prod.snd else none
  | .branch bm cs, k, hash, d =>
      if bm.testBit (chunkAt hash d) then
        lookupChild cs (popCnt bm (chunkAt hash d)) k hash (d + 1)
      else none

/-- Access of dense-array slot `j` during lookup: walk to position `j` and
continue there (out of range — impossible for well-formed nodes — is
absence). -/
def lookupChild : List (Node K V) → Nat → K → Nat → Nat → Option V
  | [], _, _, _, _ => none
  | c :: _, 0, k, hash, d => lookupN c k hash d
  | _ :: cs, j + 1, k, hash, d => lookupChild cs j k hash d

end

/-- Replace the value of the first entry whose key is `k` (spec §4.2 insert:
"value replaced in place, by constructing a replacement Bucket entry"). -/
def replaceEntry : List (K × V) → K → V → List (K × V)
  | [], _, _ => []
  | p :: ps, k, v => if p.1 = k then (k, v) :: ps else p :: replaceEntry ps k v

/-- Whether some entry's key equals `k`. -/
def containsKey (es : List (K × V)) (k : K) : Bool :=
  es.any (fun p => decide (p.1 = k))

/-- Remove the first entry whose key is `k` (spec §4.2 remove: "the key is
deleted from the bucket's entry list"). -/
def eraseEntry : List (K × V) → K → List (K × V)
  | [], _ => []
  | p :: ps, k => if p.1 = k then ps else p :: eraseEntry ps k

/-- Insert an element at position `j` of a dense child array: the array grows
by one, the new entry placed at its sorted-bit-order position, not appended
(spec §4.2 insert). -/
def insertAt {α : Type} : List α → Nat → α → List α
  | cs, 0, c => c :: cs
  | [], _ + 1, c => [c]
  | d :: cs, j + 1, c => d :: insertAt cs j c

/-- Modelled from the spec (§4.2 insert, bucket with differing full hash):
split two buckets into a branch positioning each by the next 6-bit chunk of
its residual hash; when the chunks collide too, recurse one level deeper;
when the hash bits are exhausted (fuel 0, i.e. beyond `maxDepth`), merge both
buckets into a single bucket (§9 depth-exhaustion rule — unreachable for two
distinct 64-bit hashes). -/
def splitPair : Nat → Nat → List (K × V) → Nat → Nat → List (K × V) → Nat → Node K V
  | 0, h1, es1, _, _, es2, _ => .bucket h1 (es1 ++ es2)
  | fuel + 1, h1, es1, r1, h2, es2, r2 =>
      if r1 % 64 = r2 % 64 then
        .branch (1 <<< (r1 % 64)) [splitPair fuel h1 es1 (r1 / 64) h2 es2 (r2 / 64)]
      else if r1 % 64 < r2 % 64 then
        .branch ((1 <<< (r1 % 64)) ||| (1 <<< (r2 % 64))) [.bucket h1 es1, .bucket h2 es2]
      else
        .branch ((1 <<< (r1 % 64)) ||| (1 <<< (r2 % 64))) [.bucket h2 es2, .bucket h1 es1]

mutual

/-- Modelled from the spec (§4.2 insert): copy-on-write descent at level `d`
returning the new subtree and the size delta (+1 when the key was not
previously present, 0 on an overwrite).  Bucket with matching full hash:
replace the value or append the colliding entry; bucket with differing full
hash: split (`splitPair` with the remaining `maxDepth - d` levels); branch
with the chunk's bit unset: grow the bitmap and insert a fresh bucket at the
sorted position; branch with the bit set: recurse into that child and replace
it in a copied child array. -/
def insertN : Node K V → K → V → Nat → Nat → Node K V × Nat
  | .bucket h es, k, v, hash, d =>
      if h = hash then
        if containsKey es k then (.bucket h (replaceEntry es k v), 0)
        else (.bucket h (es ++ [(k, v)]), 1)
      else
        (splitPair (maxDepth - d) h es (h / 64 ^ d) hash [(k, v)] (hash / 64 ^ d), 1)
  | .branch bm cs, k, v, hash, d =>
      if bm.testBit (chunkAt hash d) then
        let r := insertChild cs (popCnt bm (chunkAt hash d)) k v hash (d + 1)
        (.branch bm r.1, r.2)
      else
        (.branch (bm ||| (1 <<< chunkAt hash d))
          (insertAt cs (popCnt bm (chunkAt hash d)) (.bucket hash [(k, v)])), 1)

/-- Recursive insertion into dense-array slot `j`: only that slot of the
copied child array is new (out of range — impossible for well-formed nodes —
leaves the array unchanged). -/
def insertChild : List (Node K V) → Nat → K → V → Nat → Nat → List (Node K V) × Nat
  | [], _, _, _, _, _ => ([], 0)
  | c :: cs, 0, k, v, hash, d =>
      let r := insertN c k v hash d
      (r.1 :: cs, r.2)
  | c :: cs, j + 1, k, v, hash, d =>
      let r := insertChild cs j k v hash d
      (c :: r.1, r.2)

end

/-- Modelled from the spec (§4.2 remove, collapse rules on the way back up):
a branch left with no children becomes absent; a branch left with exactly one
child that is itself a bucket collapses to that bucket; otherwise the branch
stays. -/
def normalize (bm : Nat) (cs : List (Node K V)) : Option (Node K V) :=
  match cs with
  | [] => none
  | [Node.bucket h es] => some (.bucket h es)
  | _ => some (.branch bm cs)

mutual

/-- Modelled from the spec (§4.2 remove): descend as in lookup at level `d`;
at the bucket, delete the key's entry (a bucket emptied by the deletion
collapses to absent); at a branch, recurse into the chunk's child if its bit
is set, clear the bit when the child became absent, and apply the collapse
rules.  Returns the new optional node and the size delta (1 when the key was
found). -/
def removeN : Node K V → K → Nat → Nat → Option (Node K V) × Nat
  | .bucket h es, k, hash, _ =>
      if h = hash then
        if containsKey es k then
          match eraseEntry es k with
          | [] => (none, 1)
          | p :: ps => (some (.bucket h (p :: ps)), 1)
        else (some (.bucket h es), 0)
      else (some (.bucket h es), 0)
  | .branch bm cs, k, hash, d =>
      if bm.testBit (chunkAt hash d) then
        let r := removeChild cs (popCnt bm (chunkAt hash d)) k hash (d + 1)
        if r.2.1 then (normalize (clearBit64 bm (chunkAt hash d)) r.1, r.2.2)
        else (normalize bm r.1, r.2.2)
      else (some (.branch bm cs), 0)

/-- Recursive removal inside dense-array slot `j`: returns the new child
array (the slot dropped when its subtree became absent), whether the slot was
dropped, and the size delta. -/
def removeChild : List (Node K V) → Nat → K → Nat → Nat → List (Node K V) × Bool × Nat
  | [], _, _, _, _ => ([], false, 0)
  | c :: cs, 0, k, hash, d =>
      match removeN c k hash d with
      | (some c2, delta) => (c2 :: cs, false, delta)
      | (none, delta) => (cs, true, delta)
  | c :: cs, j + 1, k, hash, d =>
      let r := removeChild cs j k hash d
      (c :: r.1, r.2.1, r.2.2)

end

mutual

/-- Modelled from the spec (§4.2 iterate): depth-first traversal, branches in
ascending bit-index order (the dense array's order), buckets in stored entry
order. -/
def toListN : Node K V → List (K × V)
  | .bucket _ es => es
  | .branch _ cs => toListAll cs

/-- Concatenated traversal of a child array. -/
def toListAll : List (Node K V) → List (K × V)
  | [] => []
  | c :: cs => toListN c ++ toListAll cs

end

/-- Entries of an optional root. -/
def toListO : Option (Node K V) → List (K × V)
  | none => []
  | some t => toListN t

/-- Lookup through an optional node: an empty root always yields none
(spec §4.2). -/
def lookupO (o : Option (Node K V)) (k : K) (hash d : Nat) : Option V :=
  match o with
  | none => none
  | some t => lookupN t k hash d

/-- Modelled from the spec (§3): the Map — an optional trie root plus a live
element count.  The source's `HashMap` struct has the `size` field, but its
operations are not in the repository (its `find` refers to missing helpers),
so the wrapper is modelled from §4.3. -/
structure HashMap (K V : Type) where
  size : Nat
  root : Option (Node K V)

/-- The empty map: size 0, empty root. -/
def mempty : HashMap K V := ⟨0, none⟩

/-- Modelled from the spec (§4.3 get): hash the key with the instance's keyed
hash `hf`, delegate to lookup; an empty root always yields none. -/
def mget (hf : K → Nat) (m : HashMap K V) (k : K) : Option V :=
  match m.root with
  | none => none
  | some t => lookupN t k (hf k) 0

/-- Modelled from the spec (§4.3 insert / §4.2 insert on an absent subtree):
hash, delegate to the engine insert, adopt the new root, add the size
delta. -/
def minsert (hf : K → Nat) (m : HashMap K V) (k : K) (v : V) : HashMap K V :=
  match m.root with
  | none => ⟨m.size + 1, some (.bucket (hf k) [(k, v)])⟩
  | some t =>
      let r := insertN t k v (hf k) 0
      ⟨m.size + r.2, some r.1⟩

/-- Modelled from the spec (§4.3 remove): hash, delegate to the engine
remove, adopt the new optional root, subtract the size delta. -/
def mremove (hf : K → Nat) (m : HashMap K V) (k : K) : HashMap K V :=
  match m.root with
  | none => ⟨m.size, none⟩
  | some t =>
      let r := removeN t k (hf k) 0
      ⟨m.size - r.2, r.1⟩

/-- Embedding of `Container::len` for `HashMap`: returns the stored size. -/
def mlen (m : HashMap K V) : Nat := m.size

/-- Modelled from the spec (§4.2 iterate at the map level): all entries of
the optional root. -/
def mtoList (m : HashMap K V) : List (K × V) := toListO m.root

/-- The keys reachable from the map's root, in iteration order. -/
def mkeys (m : HashMap K V) : List K := (mtoList m).map Prod.fst

/-- Embedding of `struct HashSet<T> { map: HashMap<T, ()> }`. -/
structure HashSet (K : Type) where
  map : HashMap K Unit

/-- Modelled from the spec (§4.4): `contains` delegates to the backing map
with a unit value (the source's `contains_key` is the container trait's,
derived from `find`). -/
def scontains (hf : K → Nat) (A : HashSet K) (k : K) : Bool :=
  (mget hf A.map k).isSome

/-- Modelled from the spec (§4.2 iterate): a set's iteration yields the keys
of its backing map in traversal order. -/
def siter (A : HashSet K) : List K := mkeys A.map

/-- Embedding of `HashSet::is_disjoint`:
`self.iter().all(|v| !other.contains(v))`, with `iter` modelled from the spec
and `hfB` the other set's keyed hash. -/
def is_disjoint (hfB : K → Nat) (A B : HashSet K) : Bool :=
  (siter A).all (fun v => ! scontains hfB B v)

/-- Embedding of `HashSet::is_subset`:
`self.iter().all(|v| other.contains(v))`. -/
def is_subset (hfB : K → Nat) (A B : HashSet K) : Bool :=
  (siter A).all (fun v => scontains hfB B v)

/-- Folding `insert` over a list of key/value pairs (used to state the
round-trip property, spec §8). -/
def insertList (hf : K → Nat) (m : HashMap K V) (ps : List (K × V)) : HashMap K V :=
  ps.foldl (fun acc p => minsert hf acc p.1 p.2) m

/-- Folding `remove` over a list of keys. -/
def removeList (hf : K → Nat) (m : HashMap K V) (ks : List K) : HashMap K V :=
  ks.foldl (fun acc k2 => mremove hf acc k2) m

/-- Access to the dense-array child sitting at bit `i`: slot `popCnt bm i`. -/
def childAt (bm : Nat) (cs : List (Node K V)) (i : Nat) : Option (Node K V) :=
  cs[popCnt bm i]?

/-- Well-formedness of a trie node at level `d` under the keyed hash `hf`
(spec §3 node invariants): a bucket is non-empty, its keys pairwise distinct,
all hashing to the stored full hash; a branch's bitmap is a non-zero 64-bit
word with exactly as many set bits as children, the keys inside the child at
bit `i` all have `i` as the level-`d` chunk of their hash, and every child is
well-formed one level deeper. -/
inductive WF (hf : K → Nat) : Nat → Node K V → Prop
  | bucket {d h : Nat} {es : List (K × V)} :
      es ≠ [] → (∀ p ∈ es, hf p.1 = h) → (es.map Prod.fst).Nodup →
      WF hf d (.bucket h es)
  | branch {d bm : Nat} {cs : List (Node K V)} :
      bm ≠ 0 → bm < 2 ^ 64 → cs.length = popCnt bm 64 →
      (∀ i, i < 64 → bm.testBit i → ∀ c, childAt bm cs i = some c →
        ∀ p ∈ toListN c, chunkAt (hf p.1) d = i) →
      (∀ c ∈ cs, WF hf (d + 1) c) →
      WF hf d (.branch bm cs)

/-- Well-formedness of an optional root (level 0). -/
def WFO (hf : K → Nat) : Option (Node K V) → Prop
  | none => True
  | some t => WF hf 0 t

/-- Invariant of the Map wrapper (spec §3): a well-formed root whose stored
size is the exact number of (pairwise-distinct) keys reachable from it. -/
structure MapInv (hf : K → Nat) (m : HashMap K V) : Prop where
  wf : WFO hf m.root
  size_eq : m.size = (mkeys m).length
  nodup : (mkeys m).Nodup

end SpecEngine

/-- Concrete 64-bit hash function on naturals used for witnesses: the
identity truncated to a `u64`. -/
def hashId (n : Nat) : Nat := n % 2 ^ 64

theorem findIdx_eq_getElem (cs : List (HAMT K V)) (n : Nat) (key : K) (hash p : Nat) :
    findIdx cs n key hash p =
      match cs[n]? with
      | none => none
      | some c => findLoop c key hash p := by
  induction cs generalizing n with
  | nil => cases n <;> rfl
  | cons c cs ih => cases n <;> simp [findIdx, ih]

omit [DecidableEq K] in
theorem heightH_le_of_mem {c : HAMT K V} {cs : List (HAMT K V)} (hm : c ∈ cs) :
    heightH c ≤ heightList cs := by
  induction cs with
  | nil => cases hm
  | cons d cs ih =>
    rcases List.mem_cons.mp hm with h | h
    · subst h; simp [heightList]
    · exact le_trans (ih h) (by simp [heightList])

theorem findFuel_eq_of_height_lt (fuel : Nat) (t : HAMT K V) (key : K) (hash part : Nat)
    (hh : heightH t < fuel) :
    findFuel fuel t key hash part = some (findLoop t key hash part) := by
  induction fuel generalizing t part with
  | zero => omega
  | succ fuel ih =>
    cases t with
    | Buckets h buckets => simp only [findFuel, findLoop]
    | Branches bitset branches =>
      simp only [findFuel, findLoop, findIdx_eq_getElem]
      by_cases hb : bitset &&& ((1 <<< part) % 2 ^ 64) = 0
      · simp only [if_pos hb]
      · simp only [if_neg hb]
        cases hg : branches[(split_hash part).1]? with
        | none => rfl
        | some c =>
          have hmem : c ∈ branches := by
            rcases List.getElem?_eq_some.mp hg with ⟨hlt, hget⟩
            exact hget ▸ List.getElem_mem hlt
          have hcf : heightH c < fuel := by
            have h1 := heightH_le_of_mem hmem
            have h2 : heightList branches + 1 ≤ fuel := by
              simpa [heightH] using hh
            omega
          exact ih c (split_hash part).2 hcf

/-- First-match characterization of `List.find?`: either no element satisfies
the predicate and the result is `none`, or the result is the first element
(at the least satisfying index) that does. -/
theorem find?_first_spec {α : Type} (p : α → Bool) (l : List α) :
    ((∀ a ∈ l, p a = false) ∧ l.find? p = none)
    ∨ (∃ i, ∃ hi : i < l.length, p (l.get ⟨i, hi⟩) = true
        ∧ (∀ j, ∀ hj : j < l.length, j < i → p (l.get ⟨j, hj⟩) = false)
        ∧ l.find? p = some (l.get ⟨i, hi⟩)) := by
  induction l with
  | nil => exact Or.inl ⟨by simp, rfl⟩
  | cons a l ih =>
    cases hp : p a with
    | true =>
      refine Or.inr ⟨0, by simp, by simpa using hp, fun j hj hlt => by omega,
        by simp [List.find?, hp]⟩
    | false =>
      rcases ih with ⟨hall, hnone⟩ | ⟨i, hi, hpi, hfirst, hfind⟩
      · refine Or.inl ⟨fun b hb => ?_, by simp [List.find?, hp, hnone]⟩
        rcases List.mem_cons.mp hb with rfl | hb
        · exact hp
        · exact hall b hb
      · refine Or.inr ⟨i + 1, by simpa using Nat.succ_lt_succ hi, ?_, ?_, ?_⟩
        · simpa using hpi
        · intro j hj hlt
          cases j with
          | zero => simpa using hp
          | succ j =>
            have hj' : j < l.length := by simpa using Nat.lt_of_succ_lt_succ hj
            have := hfirst j hj' (Nat.lt_of_succ_lt_succ hlt)
            simpa using this
        · simp [List.find?, hp, hfind]

/-- C1: at a `Buckets` node, `HAMT::find` terminates with: `none` when the
bucket's stored full hash differs from the searched hash; otherwise the value
of the first entry (linear scan, key equality) whose key equals the searched
key, or `none` when no entry's key is equal. -/
theorem find_at_bucket_first_match (h hash : Nat) (bs : List (Bucket K V)) (key : K) :
    (h ≠ hash ∧ HAMT.find (HAMT.Buckets h bs) key hash = none)
    ∨ (h = hash ∧ (∀ b ∈ bs, key ≠ b.key)
        ∧ HAMT.find (HAMT.Buckets h bs) key hash = none)
    ∨ (h = hash ∧ ∃ i, ∃ hi : i < bs.length, key = (bs.get ⟨i, hi⟩).key
        ∧ (∀ j, ∀ hj : j < bs.length, j < i → key ≠ (bs.get ⟨j, hj⟩).key)
        ∧ HAMT.find (HAMT.Buckets h bs) key hash = some (bs.get ⟨i, hi⟩).value) := by
  have hunf : HAMT.find (HAMT.Buckets h bs) key hash =
      if h = hash then (bs.find? (fun b => decide (key = b.key))).map (fun b => b.value)
      else none := rfl
  by_cases hh : h = hash
  · rcases find?_first_spec (fun b => decide (key = b.key)) bs with
      ⟨hall, hnone⟩ | ⟨i, hi, hpi, hfirst, hfind⟩
    · refine Or.inr (Or.inl ⟨hh, fun b hb => ?_, ?_⟩)
      · have := hall b hb; simpa using this
      · rw [hunf, if_pos hh, hnone]; rfl
    · refine Or.inr (Or.inr ⟨hh, i, hi, by simpa using hpi, fun j hj hlt => ?_, ?_⟩)
      · have := hfirst j hj hlt; simpa using this
      · rw [hunf, if_pos hh, hfind]; rfl
  · exact Or.inl ⟨hh, by rw [hunf, if_neg hh]⟩

/-- C2: evaluation of `HAMT::find` at a failing input.  The trie is a single
branch whose bitset has bit 0 set, with a bucket holding key 5 (full hash 64)
in slot 0.  The claimed behavior is: index `64 & 63 = 0`, bit 0 of the bitmap
is set, so the search recurses into slot 0 with remaining hash `64 >> 6` and
finds `some 7` (fourth conjunct).  The code instead computes
`bitset & (1 << partial)` with the whole residual 64 as the shift amount
(truncated shift: `(1 <<< 64) % 2^64 = 0`), so it returns `none` (first
conjunct). -/
theorem find_branch_shift_defect :
    HAMT.find branchBitZero 5 64 = none
    ∧ (64 : Nat) &&& (uintBits - 1) = 0
    ∧ (1 : Nat) &&& (1 <<< ((64 : Nat) &&& (uintBits - 1))) ≠ 0
    ∧ findLoop (HAMT.Buckets 64 [(⟨5, 7⟩ : Bucket Nat Nat)]) 5 64
        ((64 : Nat) >>> LOG_UINT_SIZE) = some 7 :=
  ⟨rfl, by decide, by decide, rfl⟩

/-- C3: evaluation of `split_hash` at the failing input 64.  The mask in the
code is `(uint::max_value - 1) >> 1 = 2^63 - 1`, not `branch_factor - 1 = 63`,
so the returned index is 64: not equal to `64 & 63 = 0` and not strictly below
the branch factor, contradicting the claimed contract
`index in [0, branch_factor)`. -/
theorem split_hash_mask_defect :
    split_hash 64 = (64, 1)
    ∧ ¬ (split_hash 64).1 < uintBits
    ∧ (64 : Nat) &&& (uintBits - 1) = 0
    ∧ (split_hash 64).1 ≠ (64 : Nat) &&& (uintBits - 1) := by
  refine ⟨by decide, by decide, by decide, by decide⟩

/-! ### Bitmap and chunk arithmetic -/

theorem popCnt_succ (bm i : Nat) :
    popCnt bm (i + 1) = popCnt bm i + (if bm.testBit i then 1 else 0) := rfl

theorem popCnt_mono (bm : Nat) {i j : Nat} (h : i ≤ j) : popCnt bm i ≤ popCnt bm j := by
  induction j with
  | zero => exact Nat.le_of_eq (by rw [Nat.le_zero.mp h])
  | succ j ih =>
    by_cases hij : i = j + 1
    · exact Nat.le_of_eq (by rw [hij])
    · have h2 : i ≤ j := by omega
      have := ih h2
      rw [popCnt_succ]
      omega

theorem popCnt_lt_of_testBit (bm : Nat) {i n : Nat} (hi : i < n) (hb : bm.testBit i = true) :
    popCnt bm i < popCnt bm n := by
  have h1 : popCnt bm (i + 1) = popCnt bm i + 1 := by simp [popCnt_succ, hb]
  have h2 : popCnt bm (i + 1) ≤ popCnt bm n := popCnt_mono bm hi
  omega

theorem popCnt_inj (bm : Nat) {i j : Nat} (hbi : bm.testBit i = true)
    (hbj : bm.testBit j = true) (h : popCnt bm i = popCnt bm j) : i = j := by
  rcases Nat.lt_trichotomy i j with hij | hij | hij
  · have := popCnt_lt_of_testBit bm hij hbi; omega
  · exact hij
  · have := popCnt_lt_of_testBit bm hij hbj; omega

theorem popCnt_surj (bm : Nat) {j n : Nat} (h : j < popCnt bm n) :
    ∃ i, i < n ∧ bm.testBit i = true ∧ popCnt bm i = j := by
  induction n with
  | zero => simp [popCnt] at h
  | succ n ih =>
    by_cases hj : j < popCnt bm n
    · rcases ih hj with ⟨i, hi, hb, hp⟩
      exact ⟨i, Nat.lt_succ_of_lt hi, hb, hp⟩
    · rw [popCnt_succ] at h
      cases hb : bm.testBit n with
      | false => rw [hb] at h; simp at h; omega
      | true =>
        rw [hb] at h
        simp at h
        exact ⟨n, Nat.lt_succ_self n, hb, by omega⟩

theorem testBit_or_single (bm i j : Nat) :
    (bm ||| (1 <<< i)).testBit j = (bm.testBit j || decide (j = i)) := by
  rw [Nat.testBit_or, Nat.one_shiftLeft, Nat.testBit_two_pow]
  rcases eq_or_ne j i with h | h
  · subst h; simp
  · simp [h, Ne.symm h]

theorem popCnt_or_single (bm : Nat) {i : Nat} (hb : bm.testBit i = false) (n : Nat) :
    popCnt (bm ||| (1 <<< i)) n = popCnt bm n + (if i < n then 1 else 0) := by
  induction n with
  | zero => simp [popCnt]
  | succ n ih =>
    rw [popCnt_succ, popCnt_succ, ih, testBit_or_single]
    by_cases hin : n = i
    · subst hin
      simp [hb, Nat.lt_irrefl, Nat.lt_succ_self]
    · have hor : (bm.testBit n || decide (n = i)) = bm.testBit n := by simp [hin]
      rw [hor]
      cases htb : bm.testBit n <;>
        · simp only [Bool.false_eq_true, if_false, if_true]
          by_cases hlt : i < n
          · have hlt2 : i < n + 1 := by omega
            simp only [hlt, hlt2, if_true]
          · have hlt2 : ¬ i < n + 1 := by omega
            simp only [hlt, hlt2, if_false]

theorem popCnt_zero_bm (n : Nat) : popCnt 0 n = 0 := by
  induction n with
  | zero => rfl
  | succ n ih => simp [popCnt_succ, ih]

theorem popCnt_single (i n : Nat) : popCnt (1 <<< i) n = if i < n then 1 else 0 := by
  have h : (1 <<< i : Nat) = (0 ||| (1 <<< i)) := by simp
  rw [h, popCnt_or_single 0 (by simp) n, popCnt_zero_bm]
  exact Nat.zero_add _

theorem popCnt_pair {a b : Nat} (hab : a ≠ b) (n : Nat) :
    popCnt ((1 <<< a) ||| (1 <<< b)) n
      = (if a < n then 1 else 0) + (if b < n then 1 else 0) := by
  have hta : (1 <<< a : Nat).testBit b = false := by
    rw [Nat.one_shiftLeft, Nat.testBit_two_pow]
    simp [hab]
  rw [popCnt_or_single (1 <<< a) hta, popCnt_single]

theorem testBit_clearBit64 (bm : Nat) (hbm : bm < 2 ^ 64) (i j : Nat) :
    (clearBit64 bm i).testBit j = (bm.testBit j && ! decide (j = i)) := by
  unfold clearBit64 uintMaxValue
  rw [Nat.testBit_and, Nat.testBit_xor, Nat.one_shiftLeft, Nat.testBit_two_pow,
    Nat.testBit_two_pow_sub_one]
  by_cases hj : j < 64
  · by_cases hij : i = j
    · simp [hj, hij]
    · simp [hj, hij, Ne.symm hij]
  · have hbj : bm.testBit j = false := by
      refine Nat.testBit_lt_two_pow (lt_of_lt_of_le hbm ?_)
      exact Nat.pow_le_pow_right (by omega) (by omega)
    simp [hbj]

theorem popCnt_clearBit64_add (bm : Nat) (hbm : bm < 2 ^ 64) {i : Nat}
    (hb : bm.testBit i = true) (n : Nat) :
    popCnt bm n = popCnt (clearBit64 bm i) n + (if i < n then 1 else 0) := by
  induction n with
  | zero => simp [popCnt]
  | succ n ih =>
    rw [popCnt_succ, popCnt_succ, testBit_clearBit64 bm hbm]
    by_cases hin : n = i
    · subst hin
      have hcb : (bm.testBit n && ! decide (n = n)) = false := by simp
      rw [hcb, hb]
      simp at ih ⊢
      omega
    · have hcb : (bm.testBit n && ! decide (n = i)) = bm.testBit n := by simp [hin]
      rw [hcb]
      by_cases hlt : i < n
      · have hlt2 : i < n + 1 := by omega
        rw [if_pos hlt2]
        rw [if_pos hlt] at ih
        omega
      · have hlt2 : ¬ i < n + 1 := by omega
        rw [if_neg hlt2]
        rw [if_neg hlt] at ih
        omega

theorem popCnt_pos_of_ne_zero {bm : Nat} (h0 : bm ≠ 0) (hlt : bm < 2 ^ 64) :
    0 < popCnt bm 64 := by
  rcases Nat.ne_zero_implies_bit_true h0 with ⟨i, hi⟩
  have hi64 : i < 64 := by
    by_contra h
    have hf : bm.testBit i = false := by
      refine Nat.testBit_lt_two_pow (lt_of_lt_of_le hlt ?_)
      exact Nat.pow_le_pow_right (by omega) (by omega)
    rw [hf] at hi
    exact Bool.false_ne_true hi
  have := popCnt_lt_of_testBit bm hi64 hi
  omega

theorem testBit_high_false {bm : Nat} (hlt : bm < 2 ^ 64) {i : Nat} (hi : 64 ≤ i) :
    bm.testBit i = false := by
  refine Nat.testBit_lt_two_pow (lt_of_lt_of_le hlt ?_)
  exact Nat.pow_le_pow_right (by omega) hi

theorem chunkAt_lt (hash d : Nat) : chunkAt hash d < 64 := Nat.mod_lt _ (by omega)

theorem chunkAt_zero (hash : Nat) : chunkAt hash 0 = hash % 64 := by
  unfold chunkAt; simp

theorem div64_pow (h d : Nat) : h / 64 ^ d / 64 = h / 64 ^ (d + 1) := by
  rw [Nat.div_div_eq_div_mul, Nat.pow_succ]

theorem chunkAt_residual (h d e : Nat) : chunkAt (h / 64 ^ d) e = chunkAt h (d + e) := by
  unfold chunkAt
  rw [Nat.div_div_eq_div_mul, ← Nat.pow_add]

theorem mod_64pow_succ (x n : Nat) : x % 64 ^ (n + 1) = x % 64 ^ n + 64 ^ n * chunkAt x n := by
  rw [Nat.pow_succ]
  exact Nat.mod_mul

theorem eq_of_chunks_eq {h1 h2 : Nat} (hb1 : h1 < 2 ^ 64) (hb2 : h2 < 2 ^ 64)
    (hc : ∀ j, j < maxDepth → chunkAt h1 j = chunkAt h2 j) : h1 = h2 := by
  have key : ∀ n, n ≤ maxDepth → h1 % 64 ^ n = h2 % 64 ^ n := by
    intro n hn
    induction n with
    | zero => simp [Nat.mod_one]
    | succ n ih =>
      rw [mod_64pow_succ, mod_64pow_succ, ih (by omega), hc n (by omega)]
  have hpow : (2 : Nat) ^ 64 ≤ 64 ^ maxDepth := by norm_num [maxDepth]
  have e1 : h1 % 64 ^ maxDepth = h1 := Nat.mod_eq_of_lt (lt_of_lt_of_le hb1 hpow)
  have e2 : h2 % 64 ^ maxDepth = h2 := Nat.mod_eq_of_lt (lt_of_lt_of_le hb2 hpow)
  rw [← e1, ← e2]
  exact key maxDepth (le_refl _)

theorem exists_diff_chunk {h1 h2 : Nat} (hb1 : h1 < 2 ^ 64) (hb2 : h2 < 2 ^ 64)
    (hne : h1 ≠ h2) {d : Nat} (hag : ∀ j, j < d → chunkAt h1 j = chunkAt h2 j) :
    ∃ j, d ≤ j ∧ j < maxDepth ∧ chunkAt h1 j ≠ chunkAt h2 j := by
  by_contra hno
  push_neg at hno
  apply hne
  apply eq_of_chunks_eq hb1 hb2
  intro j hj
  by_cases hjd : j < d
  · exact hag j hjd
  · exact hno j (by omega) hj

/-! ### Walker characterizations -/

theorem lookupChild_eq (cs : List (Node K V)) (j : Nat) (k : K) (hash d : Nat) :
    lookupChild cs j k hash d =
      match cs[j]? with
      | none => none
      | some c => lookupN c k hash d := by
  induction cs generalizing j with
  | nil => cases j <;> rfl
  | cons c cs ih => cases j <;> simp [lookupChild, ih]

theorem insertChild_eq_set (cs : List (Node K V)) (j : Nat) (k : K) (v : V) (hash d : Nat)
    (c : Node K V) (hc : cs[j]? = some c) :
    insertChild cs j k v hash d
      = (cs.set j (insertN c k v hash d).1, (insertN c k v hash d).2) := by
  induction cs generalizing j with
  | nil => simp at hc
  | cons a cs ih =>
    cases j with
    | zero =>
      simp at hc
      subst hc
      rfl
    | succ j =>
      simp at hc
      simp [insertChild, ih j hc]

theorem removeChild_eq (cs : List (Node K V)) (j : Nat) (k : K) (hash d : Nat)
    (c : Node K V) (hc : cs[j]? = some c) :
    removeChild cs j k hash d =
      match removeN c k hash d with
      | (some c2, delta) => (cs.set j c2, false, delta)
      | (none, delta) => (cs.eraseIdx j, true, delta) := by
  induction cs generalizing j with
  | nil => simp at hc
  | cons a cs ih =>
    cases j with
    | zero =>
      simp at hc
      subst hc
      simp only [removeChild]
      rcases hr : removeN a k hash d with ⟨o, delta⟩
      cases o <;> simp
    | succ j =>
      simp at hc
      simp only [removeChild, ih j hc]
      rcases hr : removeN c k hash d with ⟨o, delta⟩
      cases o <;> simp

theorem length_insertAt {α : Type} (cs : List α) {j : Nat} (hj : j ≤ cs.length) (c : α) :
    (insertAt cs j c).length = cs.length + 1 := by
  induction cs generalizing j with
  | nil => cases j <;> simp_all [insertAt]
  | cons a cs ih =>
    cases j with
    | zero => rfl
    | succ j => simp only [insertAt, List.length_cons]; rw [ih (by simpa using hj)]

theorem getElem?_insertAt_self {α : Type} (cs : List α) {j : Nat} (hj : j ≤ cs.length)
    (c : α) : (insertAt cs j c)[j]? = some c := by
  induction cs generalizing j with
  | nil => cases j <;> simp_all [insertAt]
  | cons a cs ih =>
    cases j with
    | zero => rfl
    | succ j => simp only [insertAt, List.getElem?_cons_succ]; exact ih (by simpa using hj)

theorem getElem?_insertAt_lt {α : Type} (cs : List α) {j j2 : Nat} (hj : j ≤ cs.length)
    (h : j2 < j) (c : α) : (insertAt cs j c)[j2]? = cs[j2]? := by
  induction cs generalizing j j2 with
  | nil =>
    cases j with
    | zero => omega
    | succ j => simp at hj
  | cons a cs ih =>
    cases j with
    | zero => omega
    | succ j =>
      cases j2 with
      | zero => simp [insertAt]
      | succ j2 =>
        simp only [insertAt, List.getElem?_cons_succ]
        exact ih (by simpa using hj) (by omega)

theorem getElem?_insertAt_succ {α : Type} (cs : List α) {j j2 : Nat} (hj : j ≤ cs.length)
    (h : j ≤ j2) (c : α) : (insertAt cs j c)[j2 + 1]? = cs[j2]? := by
  induction cs generalizing j j2 with
  | nil =>
    cases j with
    | zero => simp [insertAt]
    | succ j => simp at hj
  | cons a cs ih =>
    cases j with
    | zero => simp [insertAt]
    | succ j =>
      cases j2 with
      | zero => omega
      | succ j2 =>
        simp only [insertAt, List.getElem?_cons_succ]
        exact ih (by simpa using hj) (by omega)

theorem mem_insertAt {α : Type} {a : α} (cs : List α) (j : Nat) (c : α)
    (h : a ∈ insertAt cs j c) : a ∈ cs ∨ a = c := by
  induction cs generalizing j with
  | nil =>
    cases j <;> simp_all [insertAt]
  | cons b cs ih =>
    cases j with
    | zero =>
      rcases List.mem_cons.mp h with rfl | h2
      · exact Or.inr rfl
      · exact Or.inl h2
    | succ j =>
      rcases List.mem_cons.mp h with rfl | h2
      · exact Or.inl (List.mem_cons_self _ _)
      · rcases ih j h2 with h3 | h3
        · exact Or.inl (List.mem_cons_of_mem _ h3)
        · exact Or.inr h3

/-! ### Traversal decompositions -/

omit [DecidableEq K] in
theorem toListAll_set_decomp (cs : List (Node K V)) (j : Nat) (c c2 : Node K V)
    (hc : cs[j]? = some c) :
    ∃ pre post, toListAll cs = pre ++ (toListN c ++ post)
      ∧ toListAll (cs.set j c2) = pre ++ (toListN c2 ++ post) := by
  induction cs generalizing j with
  | nil => simp at hc
  | cons a cs ih =>
    cases j with
    | zero =>
      simp at hc
      subst hc
      exact ⟨[], toListAll cs, by simp [toListAll], by simp [toListAll]⟩
    | succ j =>
      simp at hc
      rcases ih j hc with ⟨pre, post, h1, h2⟩
      refine ⟨toListN a ++ pre, post, ?_, ?_⟩
      · simp [toListAll, h1]
      · simp [toListAll, h2]

omit [DecidableEq K] in
theorem toListAll_eraseIdx_decomp (cs : List (Node K V)) (j : Nat) (c : Node K V)
    (hc : cs[j]? = some c) :
    ∃ pre post, toListAll cs = pre ++ (toListN c ++ post)
      ∧ toListAll (cs.eraseIdx j) = pre ++ post := by
  induction cs generalizing j with
  | nil => simp at hc
  | cons a cs ih =>
    cases j with
    | zero =>
      simp at hc
      subst hc
      exact ⟨[], toListAll cs, by simp [toListAll], by simp [toListAll]⟩
    | succ j =>
      simp at hc
      rcases ih j hc with ⟨pre, post, h1, h2⟩
      refine ⟨toListN a ++ pre, post, ?_, ?_⟩
      · simp [toListAll, h1]
      · simp [toListAll, List.eraseIdx, h2]

omit [DecidableEq K] in
theorem toListAll_insertAt_decomp (cs : List (Node K V)) {j : Nat} (hj : j ≤ cs.length)
    (c : Node K V) :
    ∃ pre post, toListAll cs = pre ++ post
      ∧ toListAll (insertAt cs j c) = pre ++ (toListN c ++ post) := by
  induction cs generalizing j with
  | nil =>
    cases j with
    | zero => exact ⟨[], [], rfl, by simp [toListAll, insertAt]⟩
    | succ j => simp at hj
  | cons a cs ih =>
    cases j with
    | zero => exact ⟨[], toListAll (a :: cs), by simp, by simp [toListAll, insertAt]⟩
    | succ j =>
      rcases ih (by simpa using hj) with ⟨pre, post, h1, h2⟩
      refine ⟨toListN a ++ pre, post, ?_, ?_⟩
      · simp [toListAll, h1]
      · simp [toListAll, insertAt, h2]

omit [DecidableEq K] in
theorem mem_toListAll_of_mem {c : Node K V} {cs : List (Node K V)} (hm : c ∈ cs)
    {p : K × V} (hp : p ∈ toListN c) : p ∈ toListAll cs := by
  induction cs with
  | nil => cases hm
  | cons a cs ih =>
    rcases List.mem_cons.mp hm with rfl | hm2
    · simp [toListAll, hp]
    · simp [toListAll, ih hm2]

omit [DecidableEq K] in
theorem toListAll_mem_idx {p : K × V} {cs : List (Node K V)} (hp : p ∈ toListAll cs) :
    ∃ (j : Nat) (c : Node K V), cs[j]? = some c ∧ p ∈ toListN c := by
  induction cs with
  | nil => simp [toListAll] at hp
  | cons a cs ih =>
    rcases List.mem_append.mp (by simpa [toListAll] using hp) with h | h
    · exact ⟨0, a, List.getElem?_cons_zero, h⟩
    · rcases ih h with ⟨j, c, hc, hm⟩
      exact ⟨j + 1, c, by simpa using hc, hm⟩

/-! ### Entry-list lemmas -/

theorem containsKey_cons (p : K × V) (ps : List (K × V)) (k : K) :
    containsKey (p :: ps) k = (decide (p.1 = k) || containsKey ps k) := by
  simp [containsKey]

theorem containsKey_false_iff (es : List (K × V)) (k : K) :
    containsKey es k = false ↔ ∀ p ∈ es, p.1 ≠ k := by
  simp [containsKey]

theorem containsKey_true_iff (es : List (K × V)) (k : K) :
    containsKey es k = true ↔ ∃ p ∈ es, p.1 = k := by
  simp [containsKey]

theorem find?_isSome_eq_containsKey (es : List (K × V)) (k : K) :
    (es.find? (fun p => decide (p.1 = k))).isSome = containsKey es k := by
  induction es with
  | nil => rfl
  | cons p ps ih =>
    rw [containsKey_cons]
    by_cases hp : p.1 = k <;> simp [List.find?, hp, ih]

theorem find?_eq_none_of_not_contains {es : List (K × V)} {k : K}
    (h : containsKey es k = false) :
    es.find? (fun p => decide (p.1 = k)) = none := by
  have := find?_isSome_eq_containsKey es k
  rw [h] at this
  exact Option.not_isSome_iff_eq_none.mp (by simp [this])

theorem find?_replace_self (es : List (K × V)) (k : K) (v : V)
    (h : containsKey es k = true) :
    (replaceEntry es k v).find? (fun p => decide (p.1 = k)) = some (k, v) := by
  induction es with
  | nil => simp [containsKey] at h
  | cons p ps ih =>
    by_cases hp : p.1 = k
    · simp [replaceEntry, hp, List.find?]
    · have h2 : containsKey ps k = true := by
        simpa [containsKey_cons, hp] using h
      simp [replaceEntry, hp, List.find?, ih h2]

theorem find?_replace_other (es : List (K × V)) (k k2 : K) (v : V) (hne : k2 ≠ k) :
    (replaceEntry es k v).find? (fun p => decide (p.1 = k2))
      = es.find? (fun p => decide (p.1 = k2)) := by
  induction es with
  | nil => rfl
  | cons p ps ih =>
    by_cases hp : p.1 = k
    · have h1 : ¬ (k = k2) := fun hh => hne hh.symm
      have h2 : ¬ (p.1 = k2) := by rw [hp]; exact h1
      simp [replaceEntry, hp, List.find?, h1, h2]
    · simp [replaceEntry, hp, List.find?, ih]

theorem find?_append_self (es : List (K × V)) (k : K) (v : V)
    (h : containsKey es k = false) :
    (es ++ [(k, v)]).find? (fun p => decide (p.1 = k)) = some (k, v) := by
  induction es with
  | nil => simp [List.find?]
  | cons p ps ih =>
    rw [containsKey_cons] at h
    have hp : ¬ p.1 = k := by
      intro hh
      rw [hh] at h
      simp at h
    have h2 : containsKey ps k = false := by
      cases hcc : containsKey ps k
      · rfl
      · rw [hcc] at h; simp at h
    simp [List.find?, hp, ih h2]

theorem find?_append_other (es : List (K × V)) (k k2 : K) (v : V) (hne : k2 ≠ k) :
    (es ++ [(k, v)]).find? (fun p => decide (p.1 = k2))
      = es.find? (fun p => decide (p.1 = k2)) := by
  induction es with
  | nil =>
    have h1 : ¬ (k = k2) := fun hh => hne hh.symm
    simp [List.find?, h1]
  | cons p ps ih =>
    by_cases hp : p.1 = k2 <;> simp [List.find?, hp, ih]

theorem containsKey_eraseEntry_self (es : List (K × V)) (k : K)
    (hnd : (es.map Prod.fst).Nodup) :
    containsKey (eraseEntry es k) k = false := by
  induction es with
  | nil => rfl
  | cons p ps ih =>
    rw [List.map_cons, List.nodup_cons] at hnd
    by_cases hp : p.1 = k
    · simp only [eraseEntry, hp, if_true]
      rw [containsKey_false_iff]
      intro q hq hqk
      exact hnd.1 (by rw [← hp] at hqk; exact hqk ▸ List.mem_map_of_mem Prod.fst hq)
    · simp only [eraseEntry, hp, if_false]
      rw [containsKey_cons, ih hnd.2]
      simp [hp]

theorem find?_eraseEntry_other (es : List (K × V)) (k k2 : K) (hne : k2 ≠ k) :
    (eraseEntry es k).find? (fun p => decide (p.1 = k2))
      = es.find? (fun p => decide (p.1 = k2)) := by
  induction es with
  | nil => rfl
  | cons p ps ih =>
    by_cases hp : p.1 = k
    · have h1 : ¬ (k = k2) := fun hh => hne hh.symm
      have h2 : ¬ (p.1 = k2) := by rw [hp]; exact h1
      simp [eraseEntry, hp, List.find?, h1, h2]
    · simp [eraseEntry, hp, List.find?, ih]

theorem length_replaceEntry (es : List (K × V)) (k : K) (v : V) :
    (replaceEntry es k v).length = es.length := by
  induction es with
  | nil => rfl
  | cons p ps ih => by_cases hp : p.1 = k <;> simp [replaceEntry, hp, ih]

theorem map_fst_replaceEntry (es : List (K × V)) (k : K) (v : V) :
    (replaceEntry es k v).map Prod.fst = es.map Prod.fst := by
  induction es with
  | nil => rfl
  | cons p ps ih => by_cases hp : p.1 = k <;> simp [replaceEntry, hp, ih]

theorem mem_replaceEntry (es : List (K × V)) (k : K) (v : V) {p : K × V}
    (h : p ∈ replaceEntry es k v) : p ∈ es ∨ p = (k, v) := by
  induction es with
  | nil => simp [replaceEntry] at h
  | cons q ps ih =>
    by_cases hq : q.1 = k
    · simp only [replaceEntry, hq, if_true] at h
      rcases List.mem_cons.mp h with rfl | h2
      · exact Or.inr rfl
      · exact Or.inl (List.mem_cons_of_mem _ h2)
    · simp only [replaceEntry, hq, if_false] at h
      rcases List.mem_cons.mp h with rfl | h2
      · exact Or.inl (List.mem_cons_self _ _)
      · rcases ih h2 with h3 | h3
        · exact Or.inl (List.mem_cons_of_mem _ h3)
        · exact Or.inr h3

theorem length_eraseEntry_of_contains (es : List (K × V)) (k : K)
    (h : containsKey es k = true) :
    es.length = (eraseEntry es k).length + 1 := by
  induction es with
  | nil => simp [containsKey] at h
  | cons p ps ih =>
    by_cases hp : p.1 = k
    · simp [eraseEntry, hp]
    · have h2 : containsKey ps k = true := by
        simpa [containsKey_cons, hp] using h
      simp [eraseEntry, hp, ih h2]

theorem eraseEntry_sublist (es : List (K × V)) (k : K) :
    (eraseEntry es k).Sublist es := by
  induction es with
  | nil => exact List.Sublist.refl _
  | cons p ps ih =>
    by_cases hp : p.1 = k
    · simp only [eraseEntry, hp, if_true]
      exact List.sublist_cons_of_sublist p (List.Sublist.refl ps)
    · simp only [eraseEntry, hp, if_false]
      exact List.Sublist.cons₂ p ih

theorem mem_eraseEntry (es : List (K × V)) (k : K) {p : K × V}
    (h : p ∈ eraseEntry es k) : p ∈ es :=
  (eraseEntry_sublist es k).mem h

/-! ### Lookup unfolding and split lemmas -/

theorem lookupN_bucket (h : Nat) (es : List (K × V)) (k : K) (hash d : Nat) :
    lookupN (.bucket h es) k hash d
      = if h = hash then (es.find? (fun p => decide (p.1 = k))).map Prod.snd
        else none := rfl

theorem lookupN_bucket_level (h : Nat) (es : List (K × V)) (k : K) (hash d d2 : Nat) :
    lookupN (.bucket h es) k hash d = lookupN (.bucket h es) k hash d2 := rfl

theorem lookupN_branch (bm : Nat) (cs : List (Node K V)) (k : K) (hash d : Nat) :
    lookupN (.branch bm cs) k hash d
      = if bm.testBit (chunkAt hash d) then
          match cs[popCnt bm (chunkAt hash d)]? with
          | none => none
          | some c => lookupN c k hash (d + 1)
        else none := by
  simp only [lookupN, lookupChild_eq]

omit [DecidableEq K] in
theorem toListN_splitPair :
    ∀ (fuel h1 : Nat) (es1 : List (K × V)) (r1 h2 : Nat) (es2 : List (K × V)) (r2 : Nat),
      toListN (splitPair fuel h1 es1 r1 h2 es2 r2) = es1 ++ es2
      ∨ toListN (splitPair fuel h1 es1 r1 h2 es2 r2) = es2 ++ es1 := by
  intro fuel
  induction fuel with
  | zero => intro h1 es1 r1 h2 es2 r2; exact Or.inl rfl
  | succ fuel ih =>
    intro h1 es1 r1 h2 es2 r2
    by_cases heq : r1 % 64 = r2 % 64
    · have := ih h1 es1 (r1 / 64) h2 es2 (r2 / 64)
      rcases this with h | h
      · exact Or.inl (by simp [splitPair, heq, toListN, toListAll, h])
      · exact Or.inr (by simp [splitPair, heq, toListN, toListAll, h])
    · by_cases hlt : r1 % 64 < r2 % 64
      · exact Or.inl (by simp [splitPair, heq, hlt, toListN, toListAll])
      · exact Or.inr (by simp [splitPair, heq, hlt, toListN, toListAll])

theorem chunkAt_def (hash d : Nat) : chunkAt hash d = hash / 64 ^ d % 64 := rfl

theorem lookupN_branch_two (a b : Nat) (hab : a ≠ b) (x y : Node K V)
    (k2 : K) (hash d : Nat) :
    lookupN (.branch ((1 <<< a) ||| (1 <<< b))
        (if a < b then [x, y] else [y, x])) k2 hash d
      = if chunkAt hash d = a then lookupN x k2 hash (d + 1)
        else if chunkAt hash d = b then lookupN y k2 hash (d + 1)
        else none := by
  rw [lookupN_branch]
  have htb : ((1 <<< a) ||| (1 <<< b) : Nat).testBit (chunkAt hash d)
      = (decide (chunkAt hash d = a) || decide (chunkAt hash d = b)) := by
    rw [testBit_or_single, Nat.one_shiftLeft, Nat.testBit_two_pow]
    rcases eq_or_ne (chunkAt hash d) a with h | h
    · simp [h]
    · simp [h, Ne.symm h]
  rw [htb]
  by_cases h1 : chunkAt hash d = a
  · rw [if_pos (by rw [h1]; simp), if_pos h1, popCnt_pair hab, h1]
    by_cases hord : a < b
    · have hba : ¬ b < a := by omega
      rw [if_pos hord]
      simp [Nat.lt_irrefl, hba]
    · have hba : b < a := by omega
      rw [if_neg hord]
      simp [Nat.lt_irrefl, hba]
  · by_cases h2 : chunkAt hash d = b
    · rw [if_pos (by rw [h2]; simp), if_neg h1, if_pos h2, popCnt_pair hab, h2]
      have hab2 : ¬ b < b := Nat.lt_irrefl b
      by_cases hord : a < b
      · rw [if_pos hord]
        simp [hord, hab2]
      · have hba : b < a := by omega
        rw [if_neg hord]
        simp [hord, hab2]
    · rw [if_neg (by simp [h1, h2]), if_neg h1, if_neg h2]

theorem lookupN_splitPair (hf : K → Nat) (k : K) (v : V) (es1 : List (K × V)) (h1 h2 : Nat)
    (hk2 : hf k = h2) :
    ∀ (fuel d : Nat),
      (∃ j, d ≤ j ∧ j < d + fuel ∧ chunkAt h1 j ≠ chunkAt h2 j) →
      ∀ k2 : K,
        lookupN (splitPair fuel h1 es1 (h1 / 64 ^ d) h2 [(k, v)] (h2 / 64 ^ d)) k2 (hf k2) d
          = if k2 = k then some v else lookupN (Node.bucket h1 es1) k2 (hf k2) d := by
  intro fuel
  induction fuel with
  | zero =>
    intro d hdiff k2
    rcases hdiff with ⟨j, hj1, hj2, _⟩
    omega
  | succ fuel ih =>
    intro d hdiff k2
    by_cases heq : chunkAt h1 d = chunkAt h2 d
    · have hdiff2 : ∃ j, d + 1 ≤ j ∧ j < (d + 1) + fuel ∧ chunkAt h1 j ≠ chunkAt h2 j := by
        rcases hdiff with ⟨j, hj1, hj2, hj3⟩
        refine ⟨j, ?_, by omega, hj3⟩
        rcases Nat.eq_or_lt_of_le hj1 with rfl | h
        · exact absurd heq hj3
        · omega
      have hu : splitPair (fuel + 1) h1 es1 (h1 / 64 ^ d) h2 [(k, v)] (h2 / 64 ^ d)
          = Node.branch (1 <<< chunkAt h1 d)
              [splitPair fuel h1 es1 (h1 / 64 ^ (d + 1)) h2 [(k, v)] (h2 / 64 ^ (d + 1))] := by
        simp only [splitPair, ← chunkAt_def, div64_pow]
        rw [if_pos heq]
      rw [hu, lookupN_branch]
      by_cases hc : chunkAt (hf k2) d = chunkAt h1 d
      · have htb : (1 <<< chunkAt h1 d : Nat).testBit (chunkAt (hf k2) d) = true := by
          rw [Nat.one_shiftLeft, Nat.testBit_two_pow]
          exact decide_eq_true hc.symm
        rw [if_pos htb]
        have hpc : popCnt (1 <<< chunkAt h1 d) (chunkAt (hf k2) d) = 0 := by
          rw [popCnt_single, hc]
          simp
        rw [hpc]
        simp only [List.getElem?_cons_zero]
        exact ih (d + 1) hdiff2 k2
      · have htb : (1 <<< chunkAt h1 d : Nat).testBit (chunkAt (hf k2) d) = false := by
          rw [Nat.one_shiftLeft, Nat.testBit_two_pow]
          exact decide_eq_false (fun hh => hc hh.symm)
        rw [if_neg (by simp [htb])]
        have hkk : k2 ≠ k := by
          intro hkk
          subst hkk
          rw [hk2] at hc
          exact hc heq.symm
        rw [if_neg hkk, lookupN_bucket]
        rw [if_neg (fun hh : h1 = hf k2 => hc (by rw [← hh]))]
    · have hu2 : splitPair (fuel + 1) h1 es1 (h1 / 64 ^ d) h2 [(k, v)] (h2 / 64 ^ d)
          = Node.branch ((1 <<< chunkAt h1 d) ||| (1 <<< chunkAt h2 d))
              (if chunkAt h1 d < chunkAt h2 d
                then [Node.bucket h1 es1, Node.bucket h2 [(k, v)]]
                else [Node.bucket h2 [(k, v)], Node.bucket h1 es1]) := by
        simp only [splitPair, ← chunkAt_def]
        rw [if_neg heq]
        by_cases hlt : chunkAt h1 d < chunkAt h2 d <;> simp [hlt]
      rw [hu2, lookupN_branch_two (chunkAt h1 d) (chunkAt h2 d) heq]
      by_cases hc1 : chunkAt (hf k2) d = chunkAt h1 d
      · rw [if_pos hc1]
        have hkk : k2 ≠ k := by
          intro hkk
          subst hkk
          rw [hk2] at hc1
          exact heq hc1.symm
        rw [if_neg hkk]
        rfl
      · rw [if_neg hc1]
        by_cases hc2 : chunkAt (hf k2) d = chunkAt h2 d
        · rw [if_pos hc2, lookupN_bucket]
          by_cases hkk : k2 = k
          · subst hkk
            rw [if_pos hk2.symm, if_pos rfl]
            simp [List.find?]
          · rw [if_neg hkk]
            have hne2 : ¬ (k = k2) := fun hh => hkk hh.symm
            have hfind : ([(k, v)].find? (fun p => decide (p.1 = k2))) = none := by
              simp only [List.find?]
              rw [decide_eq_false hne2]
            rw [lookupN_bucket, if_neg (fun hh : h1 = hf k2 => hc1 (by rw [← hh]))]
            by_cases hh2 : h2 = hf k2
            · rw [if_pos hh2, hfind]
              rfl
            · rw [if_neg hh2]
        · rw [if_neg hc2]
          have hkk : k2 ≠ k := by
            intro hkk
            subst hkk
            rw [hk2] at hc2
            exact hc2 rfl
          rw [if_neg hkk, lookupN_bucket,
            if_neg (fun hh : h1 = hf k2 => hc1 (by rw [← hh]))]

theorem lookupN_branch_slot (bm : Nat) (cs : List (Node K V)) (k : K) (hash d : Nat)
    (hbit : bm.testBit (chunkAt hash d) = true) {c : Node K V}
    (hc : cs[popCnt bm (chunkAt hash d)]? = some c) :
    lookupN (.branch bm cs) k hash d = lookupN c k hash (d + 1) := by
  rw [lookupN_branch, if_pos hbit, hc]

theorem lookupN_branch_unset (bm : Nat) (cs : List (Node K V)) (k : K) (hash d : Nat)
    (hbit : bm.testBit (chunkAt hash d) = false) :
    lookupN (.branch bm cs) k hash d = none := by
  rw [lookupN_branch, if_neg (by simp [hbit])]

omit [DecidableEq K] in
theorem WF_splitPair (hf : K → Nat) (k : K) (v : V) (es1 : List (K × V)) (h1 h2 : Nat)
    (hne : es1 ≠ []) (hk1 : ∀ p ∈ es1, hf p.1 = h1) (hnd : (es1.map Prod.fst).Nodup)
    (hk2 : hf k = h2) :
    ∀ (fuel d : Nat),
      (∃ j, d ≤ j ∧ j < d + fuel ∧ chunkAt h1 j ≠ chunkAt h2 j) →
      WF hf d (splitPair fuel h1 es1 (h1 / 64 ^ d) h2 [(k, v)] (h2 / 64 ^ d)) := by
  intro fuel
  induction fuel with
  | zero =>
    intro d hdiff
    rcases hdiff with ⟨j, hj1, hj2, _⟩
    omega
  | succ fuel ih =>
    intro d hdiff
    by_cases heq : chunkAt h1 d = chunkAt h2 d
    · have hdiff2 : ∃ j, d + 1 ≤ j ∧ j < (d + 1) + fuel ∧ chunkAt h1 j ≠ chunkAt h2 j := by
        rcases hdiff with ⟨j, hj1, hj2, hj3⟩
        refine ⟨j, ?_, by omega, hj3⟩
        rcases Nat.eq_or_lt_of_le hj1 with rfl | h
        · exact absurd heq hj3
        · omega
      have hu : splitPair (fuel + 1) h1 es1 (h1 / 64 ^ d) h2 [(k, v)] (h2 / 64 ^ d)
          = Node.branch (1 <<< chunkAt h1 d)
              [splitPair fuel h1 es1 (h1 / 64 ^ (d + 1)) h2 [(k, v)] (h2 / 64 ^ (d + 1))] := by
        simp only [splitPair, ← chunkAt_def, div64_pow]
        rw [if_pos heq]
      rw [hu]
      refine WF.branch ?_ ?_ ?_ ?_ ?_
      · rw [Nat.one_shiftLeft]
        exact Nat.pos_iff_ne_zero.mp (Nat.two_pow_pos _)
      · rw [Nat.one_shiftLeft]
        exact Nat.pow_lt_pow_right (by omega) (chunkAt_lt h1 d)
      · rw [popCnt_single]
        simp [chunkAt_lt h1 d]
      · intro i hi htb c hcat p hp
        have hii : i = chunkAt h1 d := by
          rw [Nat.one_shiftLeft, Nat.testBit_two_pow] at htb
          exact (of_decide_eq_true htb).symm
        subst hii
        rw [childAt, popCnt_single] at hcat
        simp only [Nat.lt_irrefl, if_false, List.getElem?_cons_zero, Option.some.injEq] at hcat
        subst hcat
        rcases toListN_splitPair fuel h1 es1 (h1 / 64 ^ (d + 1)) h2 [(k, v)]
            (h2 / 64 ^ (d + 1)) with he | he <;> rw [he] at hp <;>
          rcases List.mem_append.mp hp with hmem | hmem
        · rw [hk1 p hmem]
        · have : p = (k, v) := by simpa using hmem
          rw [this]
          simp only [hk2]
          exact heq.symm
        · have : p = (k, v) := by simpa using hmem
          rw [this]
          simp only [hk2]
          exact heq.symm
        · rw [hk1 p hmem]
      · intro c hc
        have : c = splitPair fuel h1 es1 (h1 / 64 ^ (d + 1)) h2 [(k, v)]
            (h2 / 64 ^ (d + 1)) := by simpa using hc
        subst this
        exact ih (d + 1) hdiff2
    · have hu2 : splitPair (fuel + 1) h1 es1 (h1 / 64 ^ d) h2 [(k, v)] (h2 / 64 ^ d)
          = Node.branch ((1 <<< chunkAt h1 d) ||| (1 <<< chunkAt h2 d))
              (if chunkAt h1 d < chunkAt h2 d
                then [Node.bucket h1 es1, Node.bucket h2 [(k, v)]]
                else [Node.bucket h2 [(k, v)], Node.bucket h1 es1]) := by
        simp only [splitPair, ← chunkAt_def]
        rw [if_neg heq]
        by_cases hlt : chunkAt h1 d < chunkAt h2 d <;> simp [hlt]
      have htb1 : ((1 <<< chunkAt h1 d) ||| (1 <<< chunkAt h2 d) : Nat).testBit
          (chunkAt h1 d) = true := by
        rw [testBit_or_single, Nat.one_shiftLeft, Nat.testBit_two_pow]
        simp
      have htb2 : ((1 <<< chunkAt h1 d) ||| (1 <<< chunkAt h2 d) : Nat).testBit
          (chunkAt h2 d) = true := by
        rw [testBit_or_single, Nat.one_shiftLeft, Nat.testBit_two_pow]
        simp
      rw [hu2]
      refine WF.branch ?_ ?_ ?_ ?_ ?_
      · intro h0
        rw [h0, Nat.zero_testBit] at htb1
        exact Bool.false_ne_true htb1
      · refine Nat.or_lt_two_pow ?_ ?_ <;> rw [Nat.one_shiftLeft]
        · exact Nat.pow_lt_pow_right (by omega) (chunkAt_lt h1 d)
        · exact Nat.pow_lt_pow_right (by omega) (chunkAt_lt h2 d)
      · rw [popCnt_pair heq]
        have hl1 : chunkAt h1 d < 64 := chunkAt_lt h1 d
        have hl2 : chunkAt h2 d < 64 := chunkAt_lt h2 d
        by_cases hlt : chunkAt h1 d < chunkAt h2 d <;> simp [hlt, hl1, hl2]
      · intro i hi htb c hcat p hp
        have hii : i = chunkAt h1 d ∨ i = chunkAt h2 d := by
          rw [testBit_or_single, Nat.one_shiftLeft, Nat.testBit_two_pow] at htb
          rcases Bool.or_eq_true_iff.mp htb with h | h
          · exact Or.inl (of_decide_eq_true h).symm
          · exact Or.inr (of_decide_eq_true h)
        rw [childAt, popCnt_pair heq] at hcat
        rcases hii with rfl | rfl
        · have hc1 : ¬ chunkAt h1 d < chunkAt h1 d := Nat.lt_irrefl _
          by_cases hlt : chunkAt h1 d < chunkAt h2 d
          · have hc2 : ¬ chunkAt h2 d < chunkAt h1 d := by omega
            rw [if_pos hlt] at hcat
            simp only [hc1, hc2, if_false, Nat.add_zero, List.getElem?_cons_zero,
              Option.some.injEq] at hcat
            subst hcat
            rw [hk1 p (by simpa [toListN] using hp)]
          · have hc2 : chunkAt h2 d < chunkAt h1 d := by omega
            rw [if_neg hlt] at hcat
            simp only [hc1, hc2, if_false, if_true, Nat.zero_add,
              List.getElem?_cons_succ, List.getElem?_cons_zero,
              Option.some.injEq] at hcat
            subst hcat
            rw [hk1 p (by simpa [toListN] using hp)]
        · have hc1 : ¬ chunkAt h2 d < chunkAt h2 d := Nat.lt_irrefl _
          by_cases hlt : chunkAt h1 d < chunkAt h2 d
          · rw [if_pos hlt] at hcat
            simp only [hlt, hc1, if_true, if_false, Nat.add_zero,
              List.getElem?_cons_succ, List.getElem?_cons_zero,
              Option.some.injEq] at hcat
            subst hcat
            have : p = (k, v) := by simpa [toListN] using hp
            rw [this]
            simp [hk2]
          · rw [if_neg hlt] at hcat
            have hc3 : ¬ chunkAt h1 d < chunkAt h2 d := hlt
            simp only [hc3, hc1, if_false, Nat.add_zero,
              List.getElem?_cons_zero, Option.some.injEq] at hcat
            subst hcat
            have : p = (k, v) := by simpa [toListN] using hp
            rw [this]
            simp [hk2]
      · intro c hc
        have hwb1 : WF hf (d + 1) (Node.bucket h1 es1) := WF.bucket hne hk1 hnd
        have hwb2 : WF hf (d + 1) (Node.bucket h2 [(k, v)]) := by
          refine WF.bucket (by simp) ?_ (by simp)
          intro p hp
          have : p = (k, v) := by simpa using hp
          rw [this]
          exact hk2
        by_cases hlt : chunkAt h1 d < chunkAt h2 d
        · rw [if_pos hlt] at hc
          rcases List.mem_cons.mp hc with rfl | hc2
          · exact hwb1
          · have : c = Node.bucket h2 [(k, v)] := by simpa using hc2
            rw [this]; exact hwb2
        · rw [if_neg hlt] at hc
          rcases List.mem_cons.mp hc with rfl | hc2
          · exact hwb2
          · have : c = Node.bucket h1 es1 := by simpa using hc2
            rw [this]; exact hwb1

/-! ### Main insert lemma -/

theorem insertN_spec (hf : K → Nat) (Hhf : ∀ k0, hf k0 < 2 ^ 64) (k : K) (v : V) :
    ∀ {d : Nat} {t : Node K V}, WF hf d t →
      (∀ p ∈ toListN t, ∀ j, j < d → chunkAt (hf p.1) j = chunkAt (hf k) j) →
      WF hf d (insertN t k v (hf k) d).1
      ∧ (∀ k2 : K, lookupN (insertN t k v (hf k) d).1 k2 (hf k2) d
            = if k2 = k then some v else lookupN t k2 (hf k2) d)
      ∧ (insertN t k v (hf k) d).2
          = (if (lookupN t k (hf k) d).isSome then 0 else 1)
      ∧ (toListN (insertN t k v (hf k) d).1).length
          = (toListN t).length + (insertN t k v (hf k) d).2
      ∧ (∀ p ∈ toListN (insertN t k v (hf k) d).1, p ∈ toListN t ∨ p = (k, v)) := by
  intro d t hw
  induction hw with
  | @bucket d h es hne hk hnd =>
    intro hag
    by_cases hh : h = hf k
    · by_cases hck : containsKey es k = true
      · have hres : insertN (Node.bucket h es) k v (hf k) d
            = (Node.bucket h (replaceEntry es k v), 0) := by
          simp only [insertN, if_pos hh, if_pos hck]
        rw [hres]
        have hlookt : (lookupN (Node.bucket h es) k (hf k) d).isSome = true := by
          rw [lookupN_bucket, if_pos hh]
          have h1 := find?_isSome_eq_containsKey es k
          rw [hck] at h1
          rcases Option.isSome_iff_exists.mp h1 with ⟨p, hp⟩
          rw [hp]
          rfl
        refine ⟨?_, ?_, ?_, ?_, ?_⟩
        · refine WF.bucket ?_ ?_ ?_
          · intro hemp
            have := length_replaceEntry es k v
            rw [hemp] at this
            exact hne (List.length_eq_zero.mp this.symm)
          · intro p hp
            rcases mem_replaceEntry es k v hp with h2 | h2
            · exact hk p h2
            · rw [h2]; exact hh.symm
          · rw [map_fst_replaceEntry]; exact hnd
        · intro k2
          by_cases hkk : k2 = k
          · subst k2
            rw [if_pos rfl, lookupN_bucket, if_pos hh, find?_replace_self es k v hck]
            rfl
          · rw [if_neg hkk, lookupN_bucket, lookupN_bucket,
              find?_replace_other es k k2 v hkk]
        · rw [if_pos hlookt]
        · simp only [toListN, length_replaceEntry, Nat.add_zero]
        · intro p hp
          rcases mem_replaceEntry es k v hp with h2 | h2
          · exact Or.inl h2
          · exact Or.inr h2
      · have hck2 : containsKey es k = false := by
          cases hcc : containsKey es k
          · rfl
          · exact absurd hcc hck
        have hres : insertN (Node.bucket h es) k v (hf k) d
            = (Node.bucket h (es ++ [(k, v)]), 1) := by
          simp only [insertN, if_pos hh, hck2]
          rfl
        rw [hres]
        have hlookt : lookupN (Node.bucket h es) k (hf k) d = none := by
          rw [lookupN_bucket, if_pos hh, find?_eq_none_of_not_contains hck2]
          rfl
        refine ⟨?_, ?_, ?_, ?_, ?_⟩
        · refine WF.bucket (by simp) ?_ ?_
          · intro p hp
            rcases List.mem_append.mp hp with h2 | h2
            · exact hk p h2
            · have : p = (k, v) := by simpa using h2
              rw [this]; exact hh.symm
          · rw [List.map_append]
            rw [List.nodup_append]
            refine ⟨hnd, by simp, ?_⟩
            intro a ha
            simp only [List.map_cons, List.map_nil, List.mem_cons, List.not_mem_nil,
              or_false]
            intro hak
            rw [containsKey_false_iff] at hck2
            rcases List.mem_map.mp ha with ⟨p, hp, rfl⟩
            exact hck2 p hp hak
        · intro k2
          by_cases hkk : k2 = k
          · subst k2
            rw [if_pos rfl, lookupN_bucket, if_pos hh, find?_append_self es k v hck2]
            rfl
          · rw [if_neg hkk, lookupN_bucket, lookupN_bucket,
              find?_append_other es k k2 v hkk]
        · rw [hlookt]
          rfl
        · simp [toListN]
        · intro p hp
          rcases List.mem_append.mp hp with h2 | h2
          · exact Or.inl h2
          · exact Or.inr (by simpa using h2)
    · have hres : insertN (Node.bucket h es) k v (hf k) d
          = (splitPair (maxDepth - d) h es (h / 64 ^ d) (hf k) [(k, v)] (hf k / 64 ^ d),
              1) := by
        simp only [insertN, if_neg hh]
      rcases List.exists_mem_of_ne_nil es hne with ⟨p0, hp0⟩
      have hb1 : h < 2 ^ 64 := by rw [← hk p0 hp0]; exact Hhf p0.1
      have hag2 : ∀ j, j < d → chunkAt h j = chunkAt (hf k) j := by
        intro j hj
        rw [← hk p0 hp0]
        exact hag p0 hp0 j hj
      rcases exists_diff_chunk hb1 (Hhf k) hh hag2 with ⟨j, hj1, hj2, hj3⟩
      have hdiff : ∃ j, d ≤ j ∧ j < d + (maxDepth - d) ∧ chunkAt h j ≠ chunkAt (hf k) j :=
        ⟨j, hj1, by omega, hj3⟩
      have hlookt : lookupN (Node.bucket h es) k (hf k) d = none := by
        rw [lookupN_bucket, if_neg hh]
      rw [hres]
      refine ⟨?_, ?_, ?_, ?_, ?_⟩
      · exact WF_splitPair hf k v es h (hf k) hne hk hnd rfl (maxDepth - d) d hdiff
      · exact lookupN_splitPair hf k v es h (hf k) rfl (maxDepth - d) d hdiff
      · rw [hlookt]
        rfl
      · rcases toListN_splitPair (maxDepth - d) h es (h / 64 ^ d) (hf k) [(k, v)]
            (hf k / 64 ^ d) with he | he <;> rw [he] <;> simp [toListN]
      · intro p hp
        rcases toListN_splitPair (maxDepth - d) h es (h / 64 ^ d) (hf k) [(k, v)]
            (hf k / 64 ^ d) with he | he <;> rw [he] at hp <;>
          rcases List.mem_append.mp hp with h2 | h2
        · exact Or.inl h2
        · exact Or.inr (by simpa using h2)
        · exact Or.inr (by simpa using h2)
        · exact Or.inl h2
  | @branch d bm cs h0 hblt hlen hchunk hwf ih =>
    intro hag
    have hi64 : chunkAt (hf k) d < 64 := chunkAt_lt (hf k) d
    by_cases hbit : bm.testBit (chunkAt (hf k) d) = true
    · -- bit set: recurse into the child at the popcount slot
      have hjlt : popCnt bm (chunkAt (hf k) d) < cs.length := by
        rw [hlen]
        exact popCnt_lt_of_testBit bm hi64 hbit
      have hcget : cs[popCnt bm (chunkAt (hf k) d)]?
          = some (cs[popCnt bm (chunkAt (hf k) d)]) :=
        List.getElem?_eq_getElem hjlt
      set c := cs[popCnt bm (chunkAt (hf k) d)] with hcdef
      have hcmem : c ∈ cs := List.getElem_mem hjlt
      have hagc : ∀ p ∈ toListN c, ∀ j2, j2 < d + 1
          → chunkAt (hf p.1) j2 = chunkAt (hf k) j2 := by
        intro p hp j2 hj2
        rcases Nat.lt_or_ge j2 d with hlt | hge
        · exact hag p (mem_toListAll_of_mem hcmem hp) j2 hlt
        · have hj2d : j2 = d := by omega
          subst hj2d
          have := hchunk (chunkAt (hf k) j2) (by omega) hbit c (by rw [childAt]; exact hcget)
          exact this p hp
      rcases ih c hcmem hagc with ⟨ihWF, ihLook, ihDelta, ihLen, ihMem⟩
      have hres : insertN (Node.branch bm cs) k v (hf k) d
          = (Node.branch bm (cs.set (popCnt bm (chunkAt (hf k) d))
                (insertN c k v (hf k) (d + 1)).1),
              (insertN c k v (hf k) (d + 1)).2) := by
        simp only [insertN, if_pos hbit]
        rw [insertChild_eq_set cs _ k v (hf k) (d + 1) c hcget]
      rw [hres]
      have hsetget : (cs.set (popCnt bm (chunkAt (hf k) d))
            (insertN c k v (hf k) (d + 1)).1)[popCnt bm (chunkAt (hf k) d)]?
          = some (insertN c k v (hf k) (d + 1)).1 :=
        List.getElem?_set_self (by simpa using hjlt)
      refine ⟨?_, ?_, ?_, ?_, ?_⟩
      · refine WF.branch h0 hblt (by simpa using hlen) ?_ ?_
        · intro i2 hi2 htb2 c2 hcat2 p hp
          by_cases hslot : popCnt bm i2 = popCnt bm (chunkAt (hf k) d)
          · have hieq : i2 = chunkAt (hf k) d := popCnt_inj bm htb2 hbit hslot
            rw [childAt, hslot, hsetget] at hcat2
            injection hcat2 with hc2
            rw [← hc2] at hp
            rcases ihMem p hp with hmem | hmem
            · rw [hieq]
              exact hchunk (chunkAt (hf k) d) hi64 hbit c
                (by rw [childAt]; exact hcget) p hmem
            · rw [hmem, hieq]
          · rw [childAt, List.getElem?_set_ne (fun hh => hslot hh.symm)] at hcat2
            exact hchunk i2 hi2 htb2 c2 (by rw [childAt]; exact hcat2) p hp
        · intro c2 hc2
          rcases List.mem_or_eq_of_mem_set hc2 with hmem | rfl
          · exact hwf c2 hmem
          · exact ihWF
      · intro k2
        by_cases hkk : k2 = k
        · subst k2
          rw [if_pos rfl]
          rw [lookupN_branch_slot bm _ k (hf k) d hbit hsetget]
          rw [ihLook k, if_pos rfl]
        · rw [if_neg hkk]
          by_cases hc2 : chunkAt (hf k2) d = chunkAt (hf k) d
          · rw [lookupN_branch_slot bm _ k2 (hf k2) d (by rw [hc2]; exact hbit)
                (by rw [hc2]; exact hsetget)]
            rw [lookupN_branch_slot bm cs k2 (hf k2) d (by rw [hc2]; exact hbit)
                (by rw [hc2]; exact hcget)]
            rw [ihLook k2, if_neg hkk]
          · by_cases htb2 : bm.testBit (chunkAt (hf k2) d) = true
            · have hslotne : popCnt bm (chunkAt (hf k2) d)
                  ≠ popCnt bm (chunkAt (hf k) d) := by
                intro hh
                exact hc2 (popCnt_inj bm htb2 hbit hh)
              have hj2lt : popCnt bm (chunkAt (hf k2) d) < cs.length := by
                rw [hlen]
                exact popCnt_lt_of_testBit bm (chunkAt_lt (hf k2) d) htb2
              have hget2 : cs[popCnt bm (chunkAt (hf k2) d)]?
                  = some (cs[popCnt bm (chunkAt (hf k2) d)]) :=
                List.getElem?_eq_getElem hj2lt
              rw [lookupN_branch_slot bm _ k2 (hf k2) d htb2
                  (by rw [List.getElem?_set_ne (fun hh => hslotne hh.symm)]; exact hget2),
                lookupN_branch_slot bm cs k2 (hf k2) d htb2 hget2]
            · have htb2f : bm.testBit (chunkAt (hf k2) d) = false := by
                cases hcc : bm.testBit (chunkAt (hf k2) d)
                · rfl
                · exact absurd hcc htb2
              rw [lookupN_branch_unset bm _ k2 (hf k2) d htb2f,
                lookupN_branch_unset bm cs k2 (hf k2) d htb2f]
      · show (insertN c k v (hf k) (d + 1)).2 = _
        rw [ihDelta, lookupN_branch_slot bm cs k (hf k) d hbit hcget]
      · simp only [toListN]
        rcases toListAll_set_decomp cs (popCnt bm (chunkAt (hf k) d)) c
            (insertN c k v (hf k) (d + 1)).1 hcget with ⟨pre, post, he1, he2⟩
        rw [he1, he2]
        simp only [List.length_append]
        omega
      · intro p hp
        simp only [toListN] at hp ⊢
        rcases toListAll_set_decomp cs (popCnt bm (chunkAt (hf k) d)) c
            (insertN c k v (hf k) (d + 1)).1 hcget with ⟨pre, post, he1, he2⟩
        rw [he2] at hp
        rw [he1]
        rcases List.mem_append.mp hp with hp1 | hp1
        · exact Or.inl (List.mem_append.mpr (Or.inl hp1))
        rcases List.mem_append.mp hp1 with hp2 | hp2
        · rcases ihMem p hp2 with hmem | hmem
          · exact Or.inl (List.mem_append.mpr (Or.inr (List.mem_append.mpr (Or.inl hmem))))
          · exact Or.inr hmem
        · exact Or.inl (List.mem_append.mpr (Or.inr (List.mem_append.mpr (Or.inr hp2))))
    · -- bit unset: fresh bucket child at the sorted slot
      have hbitf : bm.testBit (chunkAt (hf k) d) = false := by
        cases hcc : bm.testBit (chunkAt (hf k) d)
        · rfl
        · exact absurd hcc hbit
      have hjle : popCnt bm (chunkAt (hf k) d) ≤ cs.length := by
        rw [hlen]
        exact popCnt_mono bm (by omega)
      have hres : insertN (Node.branch bm cs) k v (hf k) d
          = (Node.branch (bm ||| (1 <<< chunkAt (hf k) d))
              (insertAt cs (popCnt bm (chunkAt (hf k) d))
                (Node.bucket (hf k) [(k, v)])), 1) := by
        simp only [insertN, hbitf]
        rfl
      rw [hres]
      have hlookt : lookupN (Node.branch bm cs) k (hf k) d = none :=
        lookupN_branch_unset bm cs k (hf k) d hbitf
      have hpc_or : ∀ n, popCnt (bm ||| (1 <<< chunkAt (hf k) d)) n
          = popCnt bm n + (if chunkAt (hf k) d < n then 1 else 0) :=
        popCnt_or_single bm hbitf
      have hnew_at : (insertAt cs (popCnt bm (chunkAt (hf k) d))
            (Node.bucket (hf k) [(k, v)]))[popCnt bm (chunkAt (hf k) d)]?
          = some (Node.bucket (hf k) [(k, v)]) :=
        getElem?_insertAt_self cs hjle _
      refine ⟨?_, ?_, ?_, ?_, ?_⟩
      · refine WF.branch ?_ ?_ ?_ ?_ ?_
        · intro hz
          have := testBit_or_single bm (chunkAt (hf k) d) (chunkAt (hf k) d)
          rw [hz, Nat.zero_testBit] at this
          simp at this
        · refine Nat.or_lt_two_pow hblt ?_
          rw [Nat.one_shiftLeft]
          exact Nat.pow_lt_pow_right (by omega) hi64
        · rw [length_insertAt cs hjle, hpc_or 64, hlen]
          simp [hi64]
        · intro i2 hi2 htb2 c2 hcat2 p hp
          rw [testBit_or_single] at htb2
          by_cases hii : i2 = chunkAt (hf k) d
          · subst hii
            rw [childAt, hpc_or (chunkAt (hf k) d)] at hcat2
            simp only [Nat.lt_irrefl, if_false, Nat.add_zero] at hcat2
            rw [hnew_at] at hcat2
            injection hcat2 with hc2
            rw [← hc2] at hp
            have : p = (k, v) := by simpa [toListN] using hp
            rw [this]
          · have htb2b : bm.testBit i2 = true := by
              rcases Bool.or_eq_true_iff.mp htb2 with hx | hx
              · exact hx
              · exact absurd (of_decide_eq_true hx) hii
            rw [childAt, hpc_or i2] at hcat2
            rcases Nat.lt_or_ge i2 (chunkAt (hf k) d) with hord | hord
            · have hnotlt : ¬ chunkAt (hf k) d < i2 := by omega
              rw [if_neg hnotlt, Nat.add_zero] at hcat2
              have hplt : popCnt bm i2 < popCnt bm (chunkAt (hf k) d) := by
                have hstep : popCnt bm (i2 + 1) = popCnt bm i2 + 1 := by
                  simp [popCnt_succ, htb2b]
                have hmono := popCnt_mono bm (show i2 + 1 ≤ chunkAt (hf k) d by omega)
                omega
              rw [getElem?_insertAt_lt cs hjle hplt] at hcat2
              exact hchunk i2 hi2 htb2b c2 (by rw [childAt]; exact hcat2) p hp
            · have hord2 : chunkAt (hf k) d < i2 := by omega
              rw [if_pos hord2] at hcat2
              have hpge : popCnt bm (chunkAt (hf k) d) ≤ popCnt bm i2 := by
                have hstep : popCnt bm (chunkAt (hf k) d + 1)
                    = popCnt bm (chunkAt (hf k) d) := by
                  simp [popCnt_succ, hbitf]
                have hmono := popCnt_mono bm (show chunkAt (hf k) d + 1 ≤ i2 by omega)
                omega
              rw [getElem?_insertAt_succ cs hjle hpge] at hcat2
              exact hchunk i2 hi2 htb2b c2 (by rw [childAt]; exact hcat2) p hp
        · intro c2 hc2
          rcases mem_insertAt cs _ _ hc2 with hmem | rfl
          · exact hwf c2 hmem
          · refine WF.bucket (by simp) ?_ (by simp)
            intro p hp
            have : p = (k, v) := by simpa using hp
            rw [this]
      · intro k2
        by_cases hkk : k2 = k
        · subst k2
          rw [if_pos rfl]
          have htbnew : (bm ||| (1 <<< chunkAt (hf k) d)).testBit (chunkAt (hf k) d)
              = true := by
            rw [testBit_or_single]
            simp
          rw [lookupN_branch_slot _ _ k (hf k) d htbnew
              (by rw [hpc_or (chunkAt (hf k) d)]; simp only [Nat.lt_irrefl, if_false,
                Nat.add_zero]; exact hnew_at)]
          rw [lookupN_bucket, if_pos rfl]
          simp [List.find?]
        · rw [if_neg hkk]
          by_cases hc2 : chunkAt (hf k2) d = chunkAt (hf k) d
          · have htbnew : (bm ||| (1 <<< chunkAt (hf k) d)).testBit (chunkAt (hf k2) d)
                = true := by
              rw [testBit_or_single, hc2]
              simp
            rw [lookupN_branch_slot _ _ k2 (hf k2) d htbnew
                (by rw [hpc_or (chunkAt (hf k2) d), hc2]; simp only [Nat.lt_irrefl,
                  if_false, Nat.add_zero]; exact hnew_at)]
            rw [lookupN_bucket]
            have hlook2 : lookupN (Node.branch bm cs) k2 (hf k2) d = none :=
              lookupN_branch_unset bm cs k2 (hf k2) d (by rw [hc2]; exact hbitf)
            rw [hlook2]
            by_cases hhh : hf k = hf k2
            · rw [if_pos hhh]
              have hne2 : ¬ (k = k2) := fun hh => hkk hh.symm
              have : ([(k, v)].find? (fun p => decide (p.1 = k2))) = none := by
                simp only [List.find?]
                rw [decide_eq_false hne2]
              rw [this]
              rfl
            · rw [if_neg hhh]
          · by_cases htb2 : bm.testBit (chunkAt (hf k2) d) = true
            · have htbnew : (bm ||| (1 <<< chunkAt (hf k) d)).testBit (chunkAt (hf k2) d)
                  = true := by
                rw [testBit_or_single, htb2]
                simp
              have hj2lt : popCnt bm (chunkAt (hf k2) d) < cs.length := by
                rw [hlen]
                exact popCnt_lt_of_testBit bm (chunkAt_lt (hf k2) d) htb2
              have hget2 : cs[popCnt bm (chunkAt (hf k2) d)]?
                  = some (cs[popCnt bm (chunkAt (hf k2) d)]) :=
                List.getElem?_eq_getElem hj2lt
              have hslotnew : (insertAt cs (popCnt bm (chunkAt (hf k) d))
                    (Node.bucket (hf k) [(k, v)]))[popCnt (bm ||| (1 <<< chunkAt (hf k) d))
                      (chunkAt (hf k2) d)]?
                  = some (cs[popCnt bm (chunkAt (hf k2) d)]) := by
                rw [hpc_or (chunkAt (hf k2) d)]
                rcases Nat.lt_or_ge (chunkAt (hf k2) d) (chunkAt (hf k) d) with hord | hord
                · have hnotlt : ¬ chunkAt (hf k) d < chunkAt (hf k2) d := by omega
                  rw [if_neg hnotlt, Nat.add_zero]
                  have hplt : popCnt bm (chunkAt (hf k2) d)
                      < popCnt bm (chunkAt (hf k) d) := by
                    have hstep : popCnt bm (chunkAt (hf k2) d + 1)
                        = popCnt bm (chunkAt (hf k2) d) + 1 := by
                      simp [popCnt_succ, htb2]
                    have hmono := popCnt_mono bm
                      (show chunkAt (hf k2) d + 1 ≤ chunkAt (hf k) d by omega)
                    omega
                  rw [getElem?_insertAt_lt cs hjle hplt]
                  exact hget2
                · have hord2 : chunkAt (hf k) d < chunkAt (hf k2) d := by
                    rcases Nat.eq_or_lt_of_le hord with hh | hh
                    · exact absurd hh.symm hc2
                    · exact hh
                  rw [if_pos hord2]
                  have hpge : popCnt bm (chunkAt (hf k) d)
                      ≤ popCnt bm (chunkAt (hf k2) d) := by
                    have hstep : popCnt bm (chunkAt (hf k) d + 1)
                        = popCnt bm (chunkAt (hf k) d) := by
                      simp [popCnt_succ, hbitf]
                    have hmono := popCnt_mono bm
                      (show chunkAt (hf k) d + 1 ≤ chunkAt (hf k2) d by omega)
                    omega
                  rw [getElem?_insertAt_succ cs hjle hpge]
                  exact hget2
              rw [lookupN_branch_slot _ _ k2 (hf k2) d htbnew hslotnew,
                lookupN_branch_slot bm cs k2 (hf k2) d htb2 hget2]
            · have htb2f : bm.testBit (chunkAt (hf k2) d) = false := by
                cases hcc : bm.testBit (chunkAt (hf k2) d)
                · rfl
                · exact absurd hcc htb2
              have htbnewf : (bm ||| (1 <<< chunkAt (hf k) d)).testBit
                  (chunkAt (hf k2) d) = false := by
                rw [testBit_or_single, htb2f]
                simp [hc2]
              rw [lookupN_branch_unset _ _ k2 (hf k2) d htbnewf,
                lookupN_branch_unset bm cs k2 (hf k2) d htb2f]
      · show (1 : Nat) = _
        rw [hlookt]
        rfl
      · simp only [toListN]
        rcases toListAll_insertAt_decomp cs hjle (Node.bucket (hf k) [(k, v)])
          with ⟨pre, post, he1, he2⟩
        rw [he1, he2]
        simp only [List.length_append, toListN, List.length_cons, List.length_nil]
        omega
      · intro p hp
        simp only [toListN] at hp ⊢
        rcases toListAll_insertAt_decomp cs hjle (Node.bucket (hf k) [(k, v)])
          with ⟨pre, post, he1, he2⟩
        rw [he2] at hp
        rw [he1]
        rcases List.mem_append.mp hp with hp1 | hp1
        · exact Or.inl (List.mem_append.mpr (Or.inl hp1))
        rcases List.mem_append.mp hp1 with hp2 | hp2
        · exact Or.inr (by simpa [toListN] using hp2)
        · exact Or.inl (List.mem_append.mpr (Or.inr hp2))

/-! ### Remove-side helper lemmas -/

theorem getElem?_eraseIdx_lt {α : Type} (cs : List α) {j j2 : Nat} (h : j2 < j) :
    (cs.eraseIdx j)[j2]? = cs[j2]? := by
  induction cs generalizing j j2 with
  | nil => simp [List.eraseIdx]
  | cons a cs ih =>
    cases j with
    | zero => omega
    | succ j =>
      cases j2 with
      | zero => simp [List.eraseIdx]
      | succ j2 =>
        simp only [List.eraseIdx, List.getElem?_cons_succ]
        exact ih (by omega)

theorem getElem?_eraseIdx_ge {α : Type} (cs : List α) {j j2 : Nat} (h : j ≤ j2) :
    (cs.eraseIdx j)[j2]? = cs[j2 + 1]? := by
  induction cs generalizing j j2 with
  | nil => simp [List.eraseIdx]
  | cons a cs ih =>
    cases j with
    | zero => simp [List.eraseIdx]
    | succ j =>
      cases j2 with
      | zero => omega
      | succ j2 =>
        simp only [List.eraseIdx, List.getElem?_cons_succ]
        exact ih (by omega)

theorem eraseEntry_eq_nil {es : List (K × V)} {k : K} (hne : es ≠ [])
    (hck : containsKey es k = true) (h : eraseEntry es k = []) :
    ∃ v0 : V, es = [(k, v0)] := by
  cases es with
  | nil => exact absurd rfl hne
  | cons p ps =>
    by_cases hp : p.1 = k
    · simp only [eraseEntry, hp, if_true] at h
      subst h
      exact ⟨p.2, by rw [← hp]⟩
    · simp only [eraseEntry, hp, if_false] at h
      exact absurd h (List.cons_ne_nil _ _)

theorem normalize_spec (hf : K → Nat) {d bm : Nat} {cs : List (Node K V)}
    (hblt : bm < 2 ^ 64) (hlen : cs.length = popCnt bm 64)
    (hchunk : ∀ i, i < 64 → bm.testBit i = true → ∀ c, childAt bm cs i = some c →
        ∀ p ∈ toListN c, chunkAt (hf p.1) d = i)
    (hwf : ∀ c ∈ cs, WF hf (d + 1) c) :
    (∀ k2 : K, lookupO (normalize bm cs) k2 (hf k2) d
        = lookupN (.branch bm cs) k2 (hf k2) d)
    ∧ (∀ t2, normalize bm cs = some t2 → WF hf d t2)
    ∧ toListO (normalize bm cs) = toListAll cs := by
  have hbm_ne : cs ≠ [] → bm ≠ 0 := by
    intro hcs h0
    subst h0
    rw [popCnt_zero_bm] at hlen
    exact hcs (List.length_eq_zero.mp hlen)
  have hgen : ∀ (hne : cs ≠ []) (hshape : ∀ h1 es1, cs ≠ [Node.bucket h1 es1]),
      normalize bm cs = some (.branch bm cs) := by
    intro hne hshape
    cases cs with
    | nil => exact absurd rfl hne
    | cons c cs2 =>
      cases c with
      | bucket h1 es1 =>
        cases cs2 with
        | nil => exact absurd rfl (hshape h1 es1)
        | cons c2 cs3 => rfl
      | branch bm2 cs4 =>
        cases cs2 with
        | nil => rfl
        | cons c2 cs3 => rfl
  cases hcs : cs with
  | nil =>
    subst hcs
    refine ⟨?_, ?_, rfl⟩
    · intro k2
      rw [lookupN_branch]
      by_cases htb : bm.testBit (chunkAt (hf k2) d) = true
      · rw [if_pos htb]
        simp [lookupO, normalize]
      · rw [if_neg (by simp [Bool.not_eq_true] at htb ⊢; exact htb)]
        simp [lookupO, normalize]
    · intro t2 ht2
      simp [normalize] at ht2
  | cons c cs2 =>
    subst hcs
    by_cases hsingle : ∃ h1 es1, c = Node.bucket h1 es1 ∧ cs2 = []
    · rcases hsingle with ⟨h1, es1, rfl, rfl⟩
      have hnorm : normalize bm [Node.bucket h1 es1] = some (.bucket h1 es1) := rfl
      have hpc1 : popCnt bm 64 = 1 := by
        rw [← hlen]
        rfl
      rcases popCnt_surj bm (show 0 < popCnt bm 64 by omega) with ⟨b, hb64, hbtb, hbp⟩
      have hcat : childAt bm [Node.bucket h1 es1] b = some (.bucket h1 es1) := by
        rw [childAt, hbp]
        rfl
      have hkeys : ∀ p ∈ es1, chunkAt (hf p.1) d = b := by
        intro p hp
        exact hchunk b hb64 hbtb _ hcat p (by simpa [toListN] using hp)
      have hwfb : WF hf (d + 1) (Node.bucket h1 es1) :=
        hwf _ (List.mem_cons_self _ _)
      have hes1 : es1 ≠ [] := by
        cases hwfb with
        | bucket hne _ _ => exact hne
      have hhash1 : ∀ p ∈ es1, hf p.1 = h1 := by
        cases hwfb with
        | bucket _ hk _ => exact hk
      have hchunk_h1 : chunkAt h1 d = b := by
        rcases List.exists_mem_of_ne_nil es1 hes1 with ⟨p0, hp0⟩
        rw [← hhash1 p0 hp0]
        exact hkeys p0 hp0
      refine ⟨?_, ?_, ?_⟩
      · intro k2
        rw [hnorm, lookupN_branch]
        by_cases hc2 : chunkAt (hf k2) d = b
        · rw [if_pos (by rw [hc2]; exact hbtb), hc2, hbp]
          simp only [List.getElem?_cons_zero]
          rfl
        · have htb2 : bm.testBit (chunkAt (hf k2) d) = false := by
            cases htb : bm.testBit (chunkAt (hf k2) d)
            · rfl
            · exfalso
              have hne2 : chunkAt (hf k2) d ≠ b := hc2
              rcases Nat.lt_trichotomy (chunkAt (hf k2) d) b with ho | ho | ho
              · have s1 := popCnt_lt_of_testBit bm ho htb
                have s2 := popCnt_lt_of_testBit bm hb64 hbtb
                omega
              · exact hne2 ho
              · have s1 := popCnt_lt_of_testBit bm ho hbtb
                have s2 := popCnt_lt_of_testBit bm (chunkAt_lt (hf k2) d) htb
                omega
          rw [if_neg (by simp [htb2])]
          simp only [lookupO, lookupN_bucket]
          rw [if_neg ?_]
          intro hh
          rcases List.exists_mem_of_ne_nil es1 hes1 with ⟨p0, hp0⟩
          apply hc2
          rw [← hchunk_h1, hh]
      · intro t2 ht2
        rw [hnorm] at ht2
        injection ht2 with ht2
        rw [← ht2]
        cases hwfb with
        | bucket hne hk hnd => exact WF.bucket hne hk hnd
      · rw [hnorm]
        simp [toListO, toListN, toListAll]
    · have hshape : ∀ h1 es1, (c :: cs2) ≠ [Node.bucket h1 es1] := by
        intro h1 es1 hh
        apply hsingle
        have hc : c = Node.bucket h1 es1 := by
          injection hh
        have hcs2 : cs2 = [] := by
          injection hh with h1' h2'
        exact ⟨h1, es1, hc, hcs2⟩
      rw [hgen (List.cons_ne_nil _ _) hshape]
      refine ⟨fun k2 => rfl, ?_, rfl⟩
      intro t2 ht2
      injection ht2 with ht2
      rw [← ht2]
      exact WF.branch (hbm_ne (List.cons_ne_nil _ _)) hblt hlen hchunk hwf

/-! ### Main remove lemma -/

theorem removeN_spec (hf : K → Nat) (k : K) :
    ∀ {d : Nat} {t : Node K V}, WF hf d t →
      (∀ k2 : K, lookupO (removeN t k (hf k) d).1 k2 (hf k2) d
            = if k2 = k then none else lookupN t k2 (hf k2) d)
      ∧ (∀ t2, (removeN t k (hf k) d).1 = some t2 → WF hf d t2)
      ∧ (removeN t k (hf k) d).2 = (if (lookupN t k (hf k) d).isSome then 1 else 0)
      ∧ (toListO (removeN t k (hf k) d).1).length + (removeN t k (hf k) d).2
          = (toListN t).length
      ∧ (∀ p ∈ toListO (removeN t k (hf k) d).1, p ∈ toListN t) := by
  intro d t hw
  induction hw with
  | @bucket d h es hne hk hnd =>
    by_cases hh : h = hf k
    · by_cases hck : containsKey es k = true
      · have hlookSome : (lookupN (Node.bucket h es) k (hf k) d).isSome = true := by
          rw [lookupN_bucket, if_pos hh]
          have h1 := find?_isSome_eq_containsKey es k
          rw [hck] at h1
          rcases Option.isSome_iff_exists.mp h1 with ⟨p, hp⟩
          rw [hp]
          rfl
        cases herase : eraseEntry es k with
        | nil =>
          have hres : removeN (Node.bucket h es) k (hf k) d = (none, 1) := by
            simp only [removeN, if_pos hh, if_pos hck, herase]
          rcases eraseEntry_eq_nil hne hck herase with ⟨v0, hes⟩
          rw [hres]
          refine ⟨?_, ?_, ?_, ?_, ?_⟩
          · intro k2
            by_cases hkk : k2 = k
            · rw [if_pos hkk]
              rfl
            · rw [if_neg hkk, hes, lookupN_bucket]
              have hfind : ([(k, v0)].find? (fun p => decide (p.1 = k2))) = none := by
                simp only [List.find?]
                rw [decide_eq_false (fun hh2 : k = k2 => hkk hh2.symm)]
              by_cases hh2 : h = hf k2
              · rw [if_pos hh2, hfind]
                rfl
              · rw [if_neg hh2]
                rfl
          · intro t2 ht2
            exact absurd ht2 (by simp)
          · rw [if_pos hlookSome]
          · rw [hes]
            rfl
          · intro p hp
            simp [toListO] at hp
        | cons p1 ps1 =>
          have hres : removeN (Node.bucket h es) k (hf k) d
              = (some (.bucket h (p1 :: ps1)), 1) := by
            simp only [removeN, if_pos hh, if_pos hck, herase]
          rw [hres]
          refine ⟨?_, ?_, ?_, ?_, ?_⟩
          · intro k2
            by_cases hkk : k2 = k
            · subst k2
              rw [if_pos rfl]
              show lookupN (Node.bucket h (p1 :: ps1)) k (hf k) d = none
              rw [lookupN_bucket, if_pos hh, ← herase,
                find?_eq_none_of_not_contains (containsKey_eraseEntry_self es k hnd)]
              rfl
            · rw [if_neg hkk]
              show lookupN (Node.bucket h (p1 :: ps1)) k2 (hf k2) d
                  = lookupN (Node.bucket h es) k2 (hf k2) d
              rw [lookupN_bucket, lookupN_bucket, ← herase,
                find?_eraseEntry_other es k k2 hkk]
          · intro t2 ht2
            injection ht2 with ht2
            rw [← ht2]
            refine WF.bucket (by simp) ?_ ?_
            · intro p hp
              rw [← herase] at hp
              exact hk p (mem_eraseEntry es k hp)
            · rw [← herase]
              exact hnd.sublist ((eraseEntry_sublist es k).map Prod.fst)
          · rw [if_pos hlookSome]
          · show (p1 :: ps1).length + 1 = es.length
            rw [← herase]
            exact (length_eraseEntry_of_contains es k hck).symm
          · intro p hp
            show p ∈ es
            rw [show toListO (some (Node.bucket h (p1 :: ps1))) = p1 :: ps1 from rfl,
              ← herase] at hp
            exact mem_eraseEntry es k hp
      · have hck2 : containsKey es k = false := by
          cases hcc : containsKey es k
          · rfl
          · exact absurd hcc hck
        have hres : removeN (Node.bucket h es) k (hf k) d
            = (some (.bucket h es), 0) := by
          simp only [removeN, if_pos hh, hck2]
          rfl
        have hlookNone : lookupN (Node.bucket h es) k (hf k) d = none := by
          rw [lookupN_bucket, if_pos hh, find?_eq_none_of_not_contains hck2]
          rfl
        rw [hres]
        refine ⟨?_, ?_, ?_, ?_, ?_⟩
        · intro k2
          by_cases hkk : k2 = k
          · subst k2
            rw [if_pos rfl]
            exact hlookNone
          · rw [if_neg hkk]
            rfl
        · intro t2 ht2
          injection ht2 with ht2
          rw [← ht2]
          exact WF.bucket hne hk hnd
        · rw [hlookNone]
          rfl
        · rfl
        · intro p hp
          exact hp
    · have hres : removeN (Node.bucket h es) k (hf k) d
          = (some (.bucket h es), 0) := by
        simp only [removeN, if_neg hh]
      have hlookNone : lookupN (Node.bucket h es) k (hf k) d = none := by
        rw [lookupN_bucket, if_neg hh]
      rw [hres]
      refine ⟨?_, ?_, ?_, ?_, ?_⟩
      · intro k2
        by_cases hkk : k2 = k
        · subst k2
          rw [if_pos rfl]
          exact hlookNone
        · rw [if_neg hkk]
          rfl
      · intro t2 ht2
        injection ht2 with ht2
        rw [← ht2]
        exact WF.bucket hne hk hnd
      · rw [hlookNone]
        rfl
      · rfl
      · intro p hp
        exact hp
  | @branch d bm cs h0 hblt hlen hchunk hwf ih =>
    have hi64 : chunkAt (hf k) d < 64 := chunkAt_lt (hf k) d
    by_cases hbit : bm.testBit (chunkAt (hf k) d) = true
    · have hjlt : popCnt bm (chunkAt (hf k) d) < cs.length := by
        rw [hlen]
        exact popCnt_lt_of_testBit bm hi64 hbit
      have hcget : cs[popCnt bm (chunkAt (hf k) d)]?
          = some (cs[popCnt bm (chunkAt (hf k) d)]) :=
        List.getElem?_eq_getElem hjlt
      set c := cs[popCnt bm (chunkAt (hf k) d)] with hcdef
      have hcmem : c ∈ cs := List.getElem_mem hjlt
      rcases ih c hcmem with ⟨ihLook, ihWF, ihDelta, ihLen, ihMem⟩
      rcases hrem : removeN c k (hf k) (d + 1) with ⟨o, delta⟩
      rw [hrem] at ihLook ihWF ihDelta ihLen ihMem
      have hlookt : lookupN (Node.branch bm cs) k (hf k) d
          = lookupN c k (hf k) (d + 1) :=
        lookupN_branch_slot bm cs k (hf k) d hbit hcget
      cases o with
      | some c2 =>
        have hres : removeN (Node.branch bm cs) k (hf k) d
            = (normalize bm (cs.set (popCnt bm (chunkAt (hf k) d)) c2), delta) := by
          simp only [removeN, if_pos hbit,
            removeChild_eq cs (popCnt bm (chunkAt (hf k) d)) k (hf k) (d + 1) c hcget,
            hrem]
          rfl
        have hwfc2 : WF hf (d + 1) c2 := ihWF c2 rfl
        have hsetlen : (cs.set (popCnt bm (chunkAt (hf k) d)) c2).length
            = popCnt bm 64 := by simpa using hlen
        have hsetget : (cs.set (popCnt bm (chunkAt (hf k) d)) c2)[popCnt bm
              (chunkAt (hf k) d)]? = some c2 :=
          List.getElem?_set_self (by simpa using hjlt)
        have hsetchunk : ∀ i, i < 64 → bm.testBit i = true → ∀ c3,
            childAt bm (cs.set (popCnt bm (chunkAt (hf k) d)) c2) i = some c3 →
            ∀ p ∈ toListN c3, chunkAt (hf p.1) d = i := by
          intro i2 hi2 htb2 c3 hcat2 p hp
          by_cases hslot : popCnt bm i2 = popCnt bm (chunkAt (hf k) d)
          · have hieq : i2 = chunkAt (hf k) d := popCnt_inj bm htb2 hbit hslot
            rw [childAt, hslot, hsetget] at hcat2
            injection hcat2 with hc3
            rw [← hc3] at hp
            have hp2 : p ∈ toListN c := ihMem p (by simpa [toListO] using hp)
            rw [hieq]
            exact hchunk (chunkAt (hf k) d) hi64 hbit c
              (by rw [childAt]; exact hcget) p hp2
          · rw [childAt, List.getElem?_set_ne (fun hh => hslot hh.symm)] at hcat2
            exact hchunk i2 hi2 htb2 c3 (by rw [childAt]; exact hcat2) p hp
        have hsetwf : ∀ c3 ∈ cs.set (popCnt bm (chunkAt (hf k) d)) c2,
            WF hf (d + 1) c3 := by
          intro c3 hc3
          rcases List.mem_or_eq_of_mem_set hc3 with hmem | rfl
          · exact hwf c3 hmem
          · exact hwfc2
        rcases normalize_spec hf hblt hsetlen hsetchunk hsetwf with ⟨nLook, nWF, nList⟩
        rw [hres]
        refine ⟨?_, ?_, ?_, ?_, ?_⟩
        · intro k2
          rw [show (normalize bm (cs.set (popCnt bm (chunkAt (hf k) d)) c2),
                delta).1 = normalize bm (cs.set (popCnt bm (chunkAt (hf k) d)) c2)
              from rfl, nLook k2]
          by_cases hkk : k2 = k
          · subst k2
            rw [if_pos rfl,
              lookupN_branch_slot bm _ k (hf k) d hbit hsetget]
            have := ihLook k
            rw [if_pos rfl] at this
            exact this.symm ▸ this
          · rw [if_neg hkk]
            by_cases hc2 : chunkAt (hf k2) d = chunkAt (hf k) d
            · rw [lookupN_branch_slot bm _ k2 (hf k2) d (by rw [hc2]; exact hbit)
                  (by rw [hc2]; exact hsetget),
                lookupN_branch_slot bm cs k2 (hf k2) d (by rw [hc2]; exact hbit)
                  (by rw [hc2]; exact hcget)]
              have := ihLook k2
              rw [if_neg hkk] at this
              exact this
            · by_cases htb2 : bm.testBit (chunkAt (hf k2) d) = true
              · have hslotne : popCnt bm (chunkAt (hf k2) d)
                    ≠ popCnt bm (chunkAt (hf k) d) := by
                  intro hh
                  exact hc2 (popCnt_inj bm htb2 hbit hh)
                have hj2lt : popCnt bm (chunkAt (hf k2) d) < cs.length := by
                  rw [hlen]
                  exact popCnt_lt_of_testBit bm (chunkAt_lt (hf k2) d) htb2
                have hget2 : cs[popCnt bm (chunkAt (hf k2) d)]?
                    = some (cs[popCnt bm (chunkAt (hf k2) d)]) :=
                  List.getElem?_eq_getElem hj2lt
                rw [lookupN_branch_slot bm _ k2 (hf k2) d htb2
                    (by rw [List.getElem?_set_ne (fun hh => hslotne hh.symm)]
                        exact hget2),
                  lookupN_branch_slot bm cs k2 (hf k2) d htb2 hget2]
              · have htb2f : bm.testBit (chunkAt (hf k2) d) = false := by
                  cases hcc : bm.testBit (chunkAt (hf k2) d)
                  · rfl
                  · exact absurd hcc htb2
                rw [lookupN_branch_unset bm _ k2 (hf k2) d htb2f,
                  lookupN_branch_unset bm cs k2 (hf k2) d htb2f]
        · intro t2 ht2
          exact nWF t2 ht2
        · show delta = _
          rw [hlookt]
          simpa using ihDelta
        · show (toListO (normalize bm (cs.set (popCnt bm (chunkAt (hf k) d)) c2))).length
              + delta = (toListAll cs).length
          rw [nList]
          rcases toListAll_set_decomp cs (popCnt bm (chunkAt (hf k) d)) c c2 hcget
            with ⟨pre, post, he1, he2⟩
          rw [he1, he2]
          simp only [List.length_append]
          have := ihLen
          simp only [toListO] at this
          omega
        · intro p hp
          show p ∈ toListAll cs
          rw [show toListO (normalize bm (cs.set (popCnt bm (chunkAt (hf k) d)) c2),
                delta).1 = toListO (normalize bm (cs.set (popCnt bm
                (chunkAt (hf k) d)) c2)) from rfl, nList] at hp
          rcases toListAll_set_decomp cs (popCnt bm (chunkAt (hf k) d)) c c2 hcget
            with ⟨pre, post, he1, he2⟩
          rw [he2] at hp
          rw [he1]
          rcases List.mem_append.mp hp with hp1 | hp1
          · exact List.mem_append.mpr (Or.inl hp1)
          rcases List.mem_append.mp hp1 with hp2 | hp2
          · exact List.mem_append.mpr (Or.inr (List.mem_append.mpr
              (Or.inl (ihMem p (by simpa [toListO] using hp2)))))
          · exact List.mem_append.mpr (Or.inr (List.mem_append.mpr (Or.inr hp2)))
      | none =>
        have hres : removeN (Node.branch bm cs) k (hf k) d
            = (normalize (clearBit64 bm (chunkAt (hf k) d))
                (cs.eraseIdx (popCnt bm (chunkAt (hf k) d))), delta) := by
          simp only [removeN, if_pos hbit,
            removeChild_eq cs (popCnt bm (chunkAt (hf k) d)) k (hf k) (d + 1) c hcget,
            hrem]
          rfl
        have hblt2 : clearBit64 bm (chunkAt (hf k) d) < 2 ^ 64 :=
          Nat.lt_of_le_of_lt Nat.and_le_left hblt
        have hpc_add := popCnt_clearBit64_add bm hblt hbit
        have heraselen : (cs.eraseIdx (popCnt bm (chunkAt (hf k) d))).length
            = popCnt (clearBit64 bm (chunkAt (hf k) d)) 64 := by
          rw [List.length_eraseIdx_of_lt hjlt, hlen]
          have := hpc_add 64
          rw [if_pos hi64] at this
          omega
        have htbclear : ∀ i2, (clearBit64 bm (chunkAt (hf k) d)).testBit i2
            = (bm.testBit i2 && ! decide (i2 = chunkAt (hf k) d)) :=
          fun i2 => testBit_clearBit64 bm hblt (chunkAt (hf k) d) i2
        have hslot_shift : ∀ i2, i2 ≠ chunkAt (hf k) d → bm.testBit i2 = true →
            (cs.eraseIdx (popCnt bm (chunkAt (hf k) d)))[popCnt
              (clearBit64 bm (chunkAt (hf k) d)) i2]? = cs[popCnt bm i2]? := by
          intro i2 hne2 htb2
          have hadd := hpc_add i2
          rcases Nat.lt_or_ge i2 (chunkAt (hf k) d) with hord | hord
          · have hnotlt : ¬ chunkAt (hf k) d < i2 := by omega
            rw [if_neg hnotlt] at hadd
            have heq2 : popCnt (clearBit64 bm (chunkAt (hf k) d)) i2
                = popCnt bm i2 := by omega
            have hplt : popCnt bm i2 < popCnt bm (chunkAt (hf k) d) := by
              have hstep : popCnt bm (i2 + 1) = popCnt bm i2 + 1 := by
                simp [popCnt_succ, htb2]
              have hmono := popCnt_mono bm
                (show i2 + 1 ≤ chunkAt (hf k) d by omega)
              omega
            rw [heq2, getElem?_eraseIdx_lt cs hplt]
          · have hord2 : chunkAt (hf k) d < i2 := by omega
            rw [if_pos hord2] at hadd
            have hge : popCnt bm (chunkAt (hf k) d)
                ≤ popCnt (clearBit64 bm (chunkAt (hf k) d)) i2 := by
              have hstep : popCnt bm (chunkAt (hf k) d + 1)
                  = popCnt bm (chunkAt (hf k) d) + 1 := by
                simp [popCnt_succ, hbit]
              have hmono := popCnt_mono bm
                (show chunkAt (hf k) d + 1 ≤ i2 by omega)
              omega
            rw [getElem?_eraseIdx_ge cs hge]
            congr 1
            omega
        have herasechunk : ∀ i, i < 64 →
            (clearBit64 bm (chunkAt (hf k) d)).testBit i = true → ∀ c3,
            childAt (clearBit64 bm (chunkAt (hf k) d))
              (cs.eraseIdx (popCnt bm (chunkAt (hf k) d))) i = some c3 →
            ∀ p ∈ toListN c3, chunkAt (hf p.1) d = i := by
          intro i2 hi2 htb2 c3 hcat2 p hp
          rw [htbclear i2] at htb2
          rcases Bool.and_eq_true_iff.mp htb2 with ⟨htb2b, hdec⟩
          have hne2 : i2 ≠ chunkAt (hf k) d := by
            intro hh
            rw [decide_eq_true hh] at hdec
            simp at hdec
          rw [childAt, hslot_shift i2 hne2 htb2b] at hcat2
          exact hchunk i2 hi2 htb2b c3 (by rw [childAt]; exact hcat2) p hp
        have herasewf : ∀ c3 ∈ cs.eraseIdx (popCnt bm (chunkAt (hf k) d)),
            WF hf (d + 1) c3 :=
          fun c3 hc3 => hwf c3 (List.mem_of_mem_eraseIdx hc3)
        rcases normalize_spec hf hblt2 heraselen herasechunk herasewf
          with ⟨nLook, nWF, nList⟩
        rw [hres]
        refine ⟨?_, ?_, ?_, ?_, ?_⟩
        · intro k2
          rw [show (normalize (clearBit64 bm (chunkAt (hf k) d))
                (cs.eraseIdx (popCnt bm (chunkAt (hf k) d))), delta).1
              = normalize (clearBit64 bm (chunkAt (hf k) d))
                (cs.eraseIdx (popCnt bm (chunkAt (hf k) d))) from rfl, nLook k2]
          by_cases hkk : k2 = k
          · subst k2
            rw [if_pos rfl]
            refine lookupN_branch_unset _ _ k (hf k) d ?_
            rw [htbclear]
            simp
          · rw [if_neg hkk]
            by_cases hc2 : chunkAt (hf k2) d = chunkAt (hf k) d
            · rw [lookupN_branch_unset _ _ k2 (hf k2) d
                  (by rw [htbclear, hc2]; simp)]
              rw [lookupN_branch_slot bm cs k2 (hf k2) d (by rw [hc2]; exact hbit)
                  (by rw [hc2]; exact hcget)]
              have := ihLook k2
              rw [if_neg hkk] at this
              exact this
            · by_cases htb2 : bm.testBit (chunkAt (hf k2) d) = true
              · have htbc : (clearBit64 bm (chunkAt (hf k) d)).testBit
                    (chunkAt (hf k2) d) = true := by
                  rw [htbclear, htb2, decide_eq_false hc2]
                  rfl
                have hj2lt : popCnt bm (chunkAt (hf k2) d) < cs.length := by
                  rw [hlen]
                  exact popCnt_lt_of_testBit bm (chunkAt_lt (hf k2) d) htb2
                have hget2 : cs[popCnt bm (chunkAt (hf k2) d)]?
                    = some (cs[popCnt bm (chunkAt (hf k2) d)]) :=
                  List.getElem?_eq_getElem hj2lt
                rw [lookupN_branch_slot _ _ k2 (hf k2) d htbc
                    (by rw [hslot_shift (chunkAt (hf k2) d) hc2 htb2]; exact hget2),
                  lookupN_branch_slot bm cs k2 (hf k2) d htb2 hget2]
              · have htb2f : bm.testBit (chunkAt (hf k2) d) = false := by
                  cases hcc : bm.testBit (chunkAt (hf k2) d)
                  · rfl
                  · exact absurd hcc htb2
                rw [lookupN_branch_unset _ _ k2 (hf k2) d
                    (by rw [htbclear, htb2f]; rfl),
                  lookupN_branch_unset bm cs k2 (hf k2) d htb2f]
        · intro t2 ht2
          exact nWF t2 ht2
        · show delta = _
          rw [hlookt]
          simpa using ihDelta
        · show (toListO (normalize (clearBit64 bm (chunkAt (hf k) d))
                (cs.eraseIdx (popCnt bm (chunkAt (hf k) d))))).length + delta
              = (toListAll cs).length
          rw [nList]
          rcases toListAll_eraseIdx_decomp cs (popCnt bm (chunkAt (hf k) d)) c hcget
            with ⟨pre, post, he1, he2⟩
          rw [he1, he2]
          simp only [List.length_append]
          have := ihLen
          simp only [toListO, List.length_nil] at this
          omega
        · intro p hp
          show p ∈ toListAll cs
          rw [show toListO ((normalize (clearBit64 bm (chunkAt (hf k) d))
                (cs.eraseIdx (popCnt bm (chunkAt (hf k) d))), delta)).1
              = toListO (normalize (clearBit64 bm (chunkAt (hf k) d))
                (cs.eraseIdx (popCnt bm (chunkAt (hf k) d)))) from rfl,
            nList] at hp
          rcases toListAll_eraseIdx_decomp cs (popCnt bm (chunkAt (hf k) d)) c hcget
            with ⟨pre, post, he1, he2⟩
          rw [he2] at hp
          rw [he1]
          rcases List.mem_append.mp hp with hp1 | hp1
          · exact List.mem_append.mpr (Or.inl hp1)
          · exact List.mem_append.mpr (Or.inr (List.mem_append.mpr (Or.inr hp1)))
    · have hbitf : bm.testBit (chunkAt (hf k) d) = false := by
        cases hcc : bm.testBit (chunkAt (hf k) d)
        · rfl
        · exact absurd hcc hbit
      have hres : removeN (Node.branch bm cs) k (hf k) d
          = (some (.branch bm cs), 0) := by
        simp only [removeN, hbitf]
        rfl
      have hlookNone : lookupN (Node.branch bm cs) k (hf k) d = none :=
        lookupN_branch_unset bm cs k (hf k) d hbitf
      rw [hres]
      refine ⟨?_, ?_, ?_, ?_, ?_⟩
      · intro k2
        by_cases hkk : k2 = k
        · subst k2
          rw [if_pos rfl]
          exact hlookNone
        · rw [if_neg hkk]
          rfl
      · intro t2 ht2
        injection ht2 with ht2
        rw [← ht2]
        exact WF.branch h0 hblt hlen hchunk hwf
      · rw [hlookNone]
        rfl
      · rfl
      · intro p hp
        exact hp

/-! ### Distinctness of reachable keys and the membership characterization -/

omit [DecidableEq K] in
theorem toListAll_eq_flatten (cs : List (Node K V)) :
    toListAll cs = (cs.map toListN).flatten := by
  induction cs with
  | nil => rfl
  | cons c cs ih => simp [toListAll, ih]

omit [DecidableEq K] in
theorem WF_keys_nodup (hf : K → Nat) : ∀ {d : Nat} {t : Node K V}, WF hf d t →
    ((toListN t).map Prod.fst).Nodup := by
  intro d t hw
  induction hw with
  | bucket hne hk hnd => exact hnd
  | @branch d bm cs h0 hblt hlen hchunk hwf ih =>
    show ((toListAll cs).map Prod.fst).Nodup
    rw [toListAll_eq_flatten, List.map_flatten]
    rw [List.nodup_flatten]
    constructor
    · intro l hl
      rcases List.mem_map.mp hl with ⟨l2, hl2, rfl⟩
      rcases List.mem_map.mp hl2 with ⟨c, hc, rfl⟩
      exact ih c hc
    · rw [List.pairwise_iff_getElem]
      intro a b ha hb hab
      simp only [List.length_map] at ha hb
      have hgeta : ((cs.map toListN).map (List.map Prod.fst))[a]
          = ((toListN cs[a]).map Prod.fst) := by
        simp
      have hgetb : ((cs.map toListN).map (List.map Prod.fst))[b]
          = ((toListN cs[b]).map Prod.fst) := by
        simp
      rw [hgeta, hgetb]
      intro x hxa hxb
      rcases List.mem_map.mp hxa with ⟨p, hp, rfl⟩
      rcases List.mem_map.mp hxb with ⟨q, hq, hqx⟩
      rcases popCnt_surj bm (show a < popCnt bm 64 by rw [← hlen]; exact ha)
        with ⟨ba, hba64, hbatb, hbap⟩
      rcases popCnt_surj bm (show b < popCnt bm 64 by rw [← hlen]; exact hb)
        with ⟨bb, hbb64, hbbtb, hbbp⟩
      have hcata : childAt bm cs ba = some cs[a] := by
        rw [childAt, hbap]
        exact List.getElem?_eq_getElem ha
      have hcatb : childAt bm cs bb = some cs[b] := by
        rw [childAt, hbbp]
        exact List.getElem?_eq_getElem hb
      have hpa := hchunk ba hba64 hbatb cs[a] hcata p hp
      have hqb := hchunk bb hbb64 hbbtb cs[b] hcatb q hq
      have hne2 : ba ≠ bb := by
        intro hh
        rw [hh, hbbp] at hbap
        omega
      apply hne2
      rw [← hpa, ← hqb, hqx]

omit [DecidableEq K] in
theorem WF_toListN_ne_nil (hf : K → Nat) : ∀ {d : Nat} {t : Node K V}, WF hf d t →
    toListN t ≠ [] := by
  intro d t hw
  induction hw with
  | bucket hne hk hnd => exact hne
  | @branch d bm cs h0 hblt hlen hchunk hwf ih =>
    show toListAll cs ≠ []
    have hcs : cs ≠ [] := by
      intro hh
      subst hh
      simp only [List.length_nil] at hlen
      exact absurd hlen.symm (Nat.pos_iff_ne_zero.mp (popCnt_pos_of_ne_zero h0 hblt))
    rcases List.exists_mem_of_ne_nil cs hcs with ⟨c, hc⟩
    rcases List.exists_mem_of_ne_nil (toListN c) (ih c hc) with ⟨p, hp⟩
    exact List.ne_nil_of_mem (mem_toListAll_of_mem hc hp)

theorem lookupN_isSome_iff_mem (hf : K → Nat) : ∀ {d : Nat} {t : Node K V}, WF hf d t →
    ∀ k : K, (lookupN t k (hf k) d).isSome = true ↔ k ∈ (toListN t).map Prod.fst := by
  intro d t hw
  induction hw with
  | @bucket d h es hne hk hnd =>
    intro k
    show (lookupN (Node.bucket h es) k (hf k) d).isSome = true ↔ k ∈ es.map Prod.fst
    rw [lookupN_bucket]
    constructor
    · intro hs
      by_cases hh : h = hf k
      · rw [if_pos hh] at hs
        rw [Option.isSome_map'] at hs
        have := find?_isSome_eq_containsKey es k
        rw [hs] at this
        rcases (containsKey_true_iff es k).mp this.symm with ⟨p, hp, hpk⟩
        exact hpk ▸ List.mem_map_of_mem Prod.fst hp
      · rw [if_neg hh] at hs
        simp at hs
    · intro hm
      rcases List.mem_map.mp hm with ⟨p, hp, rfl⟩
      have hh : h = hf p.1 := (hk p hp).symm
      rw [if_pos hh, Option.isSome_map', find?_isSome_eq_containsKey]
      exact (containsKey_true_iff es p.1).mpr ⟨p, hp, rfl⟩
  | @branch d bm cs h0 hblt hlen hchunk hwf ih =>
    intro k
    show (lookupN (Node.branch bm cs) k (hf k) d).isSome = true
        ↔ k ∈ (toListAll cs).map Prod.fst
    constructor
    · intro hs
      rw [lookupN_branch] at hs
      by_cases hbit : bm.testBit (chunkAt (hf k) d) = true
      · rw [if_pos hbit] at hs
        cases hg : cs[popCnt bm (chunkAt (hf k) d)]? with
        | none => rw [hg] at hs; simp at hs
        | some c =>
          rw [hg] at hs
          have hcmem : c ∈ cs := by
            rcases List.getElem?_eq_some.mp hg with ⟨hlt2, hget⟩
            exact hget ▸ List.getElem_mem hlt2
          have hk2 := (ih c hcmem k).mp hs
          rcases List.mem_map.mp hk2 with ⟨p, hp, rfl⟩
          exact List.mem_map_of_mem Prod.fst (mem_toListAll_of_mem hcmem hp)
      · rw [if_neg (by simp [Bool.not_eq_true] at hbit ⊢; exact hbit)] at hs
        simp at hs
    · intro hm
      rcases List.mem_map.mp hm with ⟨p, hp, rfl⟩
      rcases toListAll_mem_idx hp with ⟨j, c, hc, hpc⟩
      have hjlt : j < cs.length := by
        rcases List.getElem?_eq_some.mp hc with ⟨hlt2, _⟩
        exact hlt2
      rcases popCnt_surj bm (show j < popCnt bm 64 by rw [← hlen]; exact hjlt)
        with ⟨b, hb64, hbtb, hbp⟩
      have hcat : childAt bm cs b = some c := by
        rw [childAt, hbp]
        exact hc
      have hchunkp := hchunk b hb64 hbtb c hcat p hpc
      rw [lookupN_branch, hchunkp, if_pos hbtb, hbp, hc]
      exact (ih c (by
        rcases List.getElem?_eq_some.mp hc with ⟨hlt2, hget⟩
        exact hget ▸ List.getElem_mem hlt2) p.1).mpr
        (List.mem_map_of_mem Prod.fst hpc)

/-! ### Map-level lemmas -/

theorem hashId_lt (n : Nat) : hashId n < 2 ^ 64 :=
  Nat.mod_lt _ (by norm_num)

theorem mget_eq_lookupO (hf : K → Nat) (m : HashMap K V) (k : K) :
    mget hf m k = lookupO m.root k (hf k) 0 := by
  rcases m with ⟨s, root⟩
  cases root <;> rfl

omit [DecidableEq K] in
theorem MapInv_empty (hf : K → Nat) : MapInv hf (mempty : HashMap K V) :=
  ⟨trivial, rfl, List.nodup_nil⟩

theorem mget_isSome_iff_mem (hf : K → Nat) (m : HashMap K V) (hwf : WFO hf m.root)
    (k : K) : (mget hf m k).isSome = true ↔ k ∈ mkeys m := by
  rcases m with ⟨s, root⟩
  cases root with
  | none => simp [mget, mkeys, mtoList, toListO]
  | some t => exact lookupN_isSome_iff_mem hf hwf k

theorem minsert_spec (hf : K → Nat) (Hhf : ∀ k0, hf k0 < 2 ^ 64)
    (m : HashMap K V) (hinv : MapInv hf m) (k : K) (v : V) :
    MapInv hf (minsert hf m k v)
    ∧ (∀ k2 : K, mget hf (minsert hf m k v) k2
        = if k2 = k then some v else mget hf m k2)
    ∧ (minsert hf m k v).size
        = m.size + (if (mget hf m k).isSome then 0 else 1) := by
  rcases m with ⟨sz, root⟩
  cases root with
  | none =>
    have hsz : sz = 0 := by
      have := hinv.size_eq
      simpa [mkeys, mtoList, toListO] using this
    subst hsz
    have hres : minsert hf (⟨0, none⟩ : HashMap K V) k v
        = ⟨1, some (.bucket (hf k) [(k, v)])⟩ := rfl
    rw [hres]
    refine ⟨⟨?_, ?_, ?_⟩, ?_, ?_⟩
    · refine WF.bucket (by simp) ?_ (by simp)
      intro p hp
      have : p = (k, v) := by simpa using hp
      rw [this]
    · rfl
    · simp [mkeys, mtoList, toListO, toListN]
    · intro k2
      show lookupN (.bucket (hf k) [(k, v)]) k2 (hf k2) 0 = _
      rw [lookupN_bucket]
      by_cases hkk : k2 = k
      · subst k2
        rw [if_pos rfl, if_pos rfl]
        simp [List.find?]
      · rw [if_neg hkk]
        have hfind : ([(k, v)].find? (fun p => decide (p.1 = k2))) = none := by
          simp only [List.find?]
          rw [decide_eq_false (fun hh : k = k2 => hkk hh.symm)]
        show _ = (none : Option V)
        by_cases hh : hf k = hf k2
        · rw [if_pos hh, hfind]
          rfl
        · rw [if_neg hh]
    · show (1 : Nat) = 0 + _
      rfl
  | some t =>
    have hwf : WF hf 0 t := hinv.wf
    have hag : ∀ p ∈ toListN t, ∀ j, j < 0 → chunkAt (hf p.1) j = chunkAt (hf k) j :=
      fun p _ j hj => absurd hj (Nat.not_lt_zero j)
    rcases insertN_spec hf Hhf k v hwf hag with ⟨iWF, iLook, iDelta, iLen, _⟩
    have hres : minsert hf (⟨sz, some t⟩ : HashMap K V) k v
        = ⟨sz + (insertN t k v (hf k) 0).2, some (insertN t k v (hf k) 0).1⟩ := rfl
    rw [hres]
    refine ⟨⟨iWF, ?_, ?_⟩, ?_, ?_⟩
    · show sz + (insertN t k v (hf k) 0).2
          = ((toListN (insertN t k v (hf k) 0).1).map Prod.fst).length
      rw [List.length_map, iLen]
      have hs := hinv.size_eq
      simp only [mkeys, mtoList, toListO, List.length_map] at hs
      omega
    · exact WF_keys_nodup hf iWF
    · intro k2
      exact iLook k2
    · show sz + (insertN t k v (hf k) 0).2 = sz + _
      rw [iDelta]
      show sz + (if (lookupN t k (hf k) 0).isSome then 0 else 1) = _
      rfl

theorem mremove_spec (hf : K → Nat) (m : HashMap K V) (hinv : MapInv hf m) (k : K) :
    MapInv hf (mremove hf m k)
    ∧ (∀ k2 : K, mget hf (mremove hf m k) k2
        = if k2 = k then none else mget hf m k2)
    ∧ (mremove hf m k).size = m.size - (if (mget hf m k).isSome then 1 else 0) := by
  rcases m with ⟨sz, root⟩
  cases root with
  | none =>
    have hres : mremove hf (⟨sz, none⟩ : HashMap K V) k = ⟨sz, none⟩ := rfl
    rw [hres]
    refine ⟨hinv, ?_, ?_⟩
    · intro k2
      by_cases hkk : k2 = k <;> simp [hkk, mget]
    · show sz = sz - _
      simp [mget]
  | some t =>
    have hwf : WF hf 0 t := hinv.wf
    rcases removeN_spec hf k hwf with ⟨rLook, rWF, rDelta, rLen, _⟩
    have hres : mremove hf (⟨sz, some t⟩ : HashMap K V) k
        = ⟨sz - (removeN t k (hf k) 0).2, (removeN t k (hf k) 0).1⟩ := rfl
    rw [hres]
    refine ⟨⟨?_, ?_, ?_⟩, ?_, ?_⟩
    · show WFO hf (removeN t k (hf k) 0).1
      cases ho : (removeN t k (hf k) 0).1 with
      | none => trivial
      | some t2 => exact rWF t2 ho
    · show sz - (removeN t k (hf k) 0).2
          = ((toListO (removeN t k (hf k) 0).1).map Prod.fst).length
      rw [List.length_map]
      have hs := hinv.size_eq
      simp only [mkeys, mtoList, toListO, List.length_map] at hs
      omega
    · show ((toListO (removeN t k (hf k) 0).1).map Prod.fst).Nodup
      cases ho : (removeN t k (hf k) 0).1 with
      | none => simp [toListO]
      | some t2 =>
        show ((toListN t2).map Prod.fst).Nodup
        exact WF_keys_nodup hf (rWF t2 ho)
    · intro k2
      rw [mget_eq_lookupO]
      exact rLook k2
    · show sz - (removeN t k (hf k) 0).2 = sz - _
      rw [rDelta]
      rfl

theorem insertList_spec (hf : K → Nat) (Hhf : ∀ k0, hf k0 < 2 ^ 64) :
    ∀ (ps : List (K × V)) (m : HashMap K V), MapInv hf m → (ps.map Prod.fst).Nodup →
      MapInv hf (insertList hf m ps)
      ∧ (∀ p ∈ ps, mget hf (insertList hf m ps) p.1 = some p.2)
      ∧ (∀ k2, k2 ∉ ps.map Prod.fst → mget hf (insertList hf m ps) k2 = mget hf m k2) := by
  intro ps
  induction ps with
  | nil =>
    intro m hinv _
    exact ⟨hinv, by simp, fun k2 _ => rfl⟩
  | cons p ps ih =>
    intro m hinv hnd
    rw [List.map_cons, List.nodup_cons] at hnd
    rcases minsert_spec hf Hhf m hinv p.1 p.2 with ⟨hinv2, hlook2, _⟩
    rcases ih (minsert hf m p.1 p.2) hinv2 hnd.2 with ⟨hinv3, hget3, hpres3⟩
    have hstep : insertList hf m (p :: ps)
        = insertList hf (minsert hf m p.1 p.2) ps := rfl
    rw [hstep]
    refine ⟨hinv3, ?_, ?_⟩
    · intro q hq
      rcases List.mem_cons.mp hq with rfl | hq2
      · rw [hpres3 q.1 hnd.1]
        have := hlook2 q.1
        rw [if_pos rfl] at this
        exact this
      · exact hget3 q hq2
    · intro k2 hk2
      rw [List.map_cons, List.mem_cons] at hk2
      push_neg at hk2
      rw [hpres3 k2 hk2.2]
      have := hlook2 k2
      rw [if_neg hk2.1] at this
      exact this

theorem removeList_spec (hf : K → Nat) :
    ∀ (ks : List K) (m : HashMap K V), MapInv hf m →
      MapInv hf (removeList hf m ks)
      ∧ (∀ k ∈ ks, mget hf (removeList hf m ks) k = none)
      ∧ (∀ k2, k2 ∉ ks → mget hf (removeList hf m ks) k2 = mget hf m k2) := by
  intro ks
  induction ks with
  | nil =>
    intro m hinv
    exact ⟨hinv, by simp, fun k2 _ => rfl⟩
  | cons k ks ih =>
    intro m hinv
    rcases mremove_spec hf m hinv k with ⟨hinv2, hlook2, _⟩
    rcases ih (mremove hf m k) hinv2 with ⟨hinv3, hnone3, hpres3⟩
    have hstep : removeList hf m (k :: ks) = removeList hf (mremove hf m k) ks := rfl
    rw [hstep]
    refine ⟨hinv3, ?_, ?_⟩
    · intro q hq
      rcases List.mem_cons.mp hq with rfl | hq2
      · by_cases hqin : q ∈ ks
        · exact hnone3 q hqin
        · rw [hpres3 q hqin]
          have := hlook2 q
          rw [if_pos rfl] at this
          exact this
      · exact hnone3 q hq2
    · intro k2 hk2
      rw [List.mem_cons] at hk2
      push_neg at hk2
      rw [hpres3 k2 hk2.2]
      have := hlook2 k2
      rw [if_neg hk2.1] at this
      exact this

/-! ### Claim theorems for the spec-modelled map and set operations -/

/-- C4: round-trip — inserting a sequence of pairwise-distinct keys into the
empty map and then getting each key returns the inserted value; subsequently
removing each of those keys and getting each returns none. -/
theorem roundtrip_insert_get_remove (hf : K → Nat) (Hhf : ∀ k0, hf k0 < 2 ^ 64)
    (ps : List (K × V)) (hnd : (ps.map Prod.fst).Nodup) :
    (∀ p ∈ ps, mget hf (insertList hf mempty ps) p.1 = some p.2)
    ∧ (∀ p ∈ ps,
        mget hf (removeList hf (insertList hf mempty ps) (ps.map Prod.fst)) p.1
          = none) := by
  rcases insertList_spec hf Hhf ps mempty (MapInv_empty hf) hnd with ⟨hinv, hget, _⟩
  rcases removeList_spec hf (ps.map Prod.fst) (insertList hf mempty ps) hinv
    with ⟨_, hnone, _⟩
  exact ⟨hget, fun p hp => hnone p.1 (List.mem_map_of_mem Prod.fst hp)⟩

theorem roundtrip_witness :
    (∀ k0 : Nat, hashId k0 < 2 ^ 64)
    ∧ (([((1 : Nat), (10 : Nat)), (2, 20)].map Prod.fst).Nodup)
    ∧ ((∀ p ∈ [((1 : Nat), (10 : Nat)), (2, 20)],
          mget hashId (insertList hashId mempty [(1, 10), (2, 20)]) p.1 = some p.2)
      ∧ (∀ p ∈ [((1 : Nat), (10 : Nat)), (2, 20)],
          mget hashId (removeList hashId (insertList hashId mempty [(1, 10), (2, 20)])
            ([((1 : Nat), (10 : Nat)), (2, 20)].map Prod.fst)) p.1 = none)) :=
  ⟨hashId_lt, by decide,
    roundtrip_insert_get_remove hashId hashId_lt [(1, 10), (2, 20)] (by decide)⟩

/-- C5 (amended): the Map invariant — `size` equals the exact number of
distinct keys reachable from the root (`size` 0 exactly when the root is
empty) — holds for the empty map and is preserved by every insert and remove;
`len()` returns the stored size in O(1); an insert that overwrites an
existing key leaves the size unchanged, a new-key insert adds one, removing a
present key subtracts one, and removing an absent key leaves it unchanged (so
`len()` is the number of distinct keys currently present, not the number of
distinct keys ever inserted minus those ever removed). -/
theorem size_invariant (hf : K → Nat) (Hhf : ∀ k0, hf k0 < 2 ^ 64) :
    MapInv hf (mempty : HashMap K V)
    ∧ (∀ m : HashMap K V, MapInv hf m → ∀ k v, MapInv hf (minsert hf m k v))
    ∧ (∀ m : HashMap K V, MapInv hf m → ∀ k, MapInv hf (mremove hf m k))
    ∧ (∀ m : HashMap K V, MapInv hf m → m.size = (mkeys m).length ∧ (mkeys m).Nodup)
    ∧ (∀ m : HashMap K V, MapInv hf m → (m.size = 0 ↔ m.root = none))
    ∧ (∀ m : HashMap K V, mlen m = m.size)
    ∧ (∀ (m : HashMap K V) (k : K) (v w : V), MapInv hf m → mget hf m k = some w →
        (minsert hf m k v).size = m.size)
    ∧ (∀ (m : HashMap K V) (k : K) (v : V), MapInv hf m → mget hf m k = none →
        (minsert hf m k v).size = m.size + 1)
    ∧ (∀ (m : HashMap K V) (k : K) (w : V), MapInv hf m → mget hf m k = some w →
        (mremove hf m k).size + 1 = m.size)
    ∧ (∀ (m : HashMap K V) (k : K), MapInv hf m → mget hf m k = none →
        (mremove hf m k).size = m.size) := by
  refine ⟨MapInv_empty hf, ?_, ?_, ?_, ?_, fun m => rfl, ?_, ?_, ?_, ?_⟩
  · intro m hinv k v
    exact (minsert_spec hf Hhf m hinv k v).1
  · intro m hinv k
    exact (mremove_spec hf m hinv k).1
  · intro m hinv
    exact ⟨hinv.size_eq, hinv.nodup⟩
  · intro m hinv
    constructor
    · intro hs
      rcases m with ⟨sz, root⟩
      cases root with
      | none => rfl
      | some t =>
        exfalso
        have hkeys := hinv.size_eq
        simp only [mkeys, mtoList, toListO, List.length_map] at hkeys
        have hne := WF_toListN_ne_nil hf (hinv.wf : WF hf 0 t)
        have : (toListN t).length ≠ 0 := fun hlen0 =>
          hne (List.length_eq_zero.mp hlen0)
        simp only at hs
        omega
    · intro hr
      have hsz := hinv.size_eq
      rcases m with ⟨sz, root⟩
      simp only at hr
      subst hr
      simpa [mkeys, mtoList, toListO] using hsz
  · intro m k v w hinv hget
    have := (minsert_spec hf Hhf m hinv k v).2.2
    rw [hget] at this
    simpa using this
  · intro m k v hinv hget
    have := (minsert_spec hf Hhf m hinv k v).2.2
    rw [hget] at this
    simpa using this
  · intro m k w hinv hget
    have hsz := (mremove_spec hf m hinv k).2.2
    rw [hget] at hsz
    have hpos : 1 ≤ m.size := by
      have hmem : k ∈ mkeys m :=
        (mget_isSome_iff_mem hf m hinv.wf k).mp (by rw [hget]; rfl)
      have := hinv.size_eq
      have hlen : mkeys m ≠ [] := List.ne_nil_of_mem hmem
      have : (mkeys m).length ≠ 0 := fun h0 => hlen (List.length_eq_zero.mp h0)
      omega
    simp only [Option.isSome_some, if_true] at hsz
    omega
  · intro m k hinv hget
    have hsz := (mremove_spec hf m hinv k).2.2
    rw [hget] at hsz
    simpa using hsz

theorem size_invariant_witness :
    (∀ k0 : Nat, hashId k0 < 2 ^ 64)
    ∧ (MapInv hashId (mempty : HashMap Nat Nat)
      ∧ (∀ m : HashMap Nat Nat, MapInv hashId m → ∀ k v,
          MapInv hashId (minsert hashId m k v))
      ∧ (∀ m : HashMap Nat Nat, MapInv hashId m → ∀ k,
          MapInv hashId (mremove hashId m k))
      ∧ (∀ m : HashMap Nat Nat, MapInv hashId m →
          m.size = (mkeys m).length ∧ (mkeys m).Nodup)
      ∧ (∀ m : HashMap Nat Nat, MapInv hashId m → (m.size = 0 ↔ m.root = none))
      ∧ (∀ m : HashMap Nat Nat, mlen m = m.size)
      ∧ (∀ (m : HashMap Nat Nat) (k v w : Nat), MapInv hashId m →
          mget hashId m k = some w → (minsert hashId m k v).size = m.size)
      ∧ (∀ (m : HashMap Nat Nat) (k v : Nat), MapInv hashId m →
          mget hashId m k = none → (minsert hashId m k v).size = m.size + 1)
      ∧ (∀ (m : HashMap Nat Nat) (k w : Nat), MapInv hashId m →
          mget hashId m k = some w → (mremove hashId m k).size + 1 = m.size)
      ∧ (∀ (m : HashMap Nat Nat) (k : Nat), MapInv hashId m →
          mget hashId m k = none → (mremove hashId m k).size = m.size)) :=
  ⟨hashId_lt, size_invariant hashId hashId_lt⟩

/-- C5 counterexample: for the operation sequence insert 0, remove 0,
insert 0 on the empty map, `len()` is 1, while the number of distinct keys
inserted minus the number of distinct keys removed is `1 - 1 = 0` — the
claimed formula "len() equals distinct keys inserted minus distinct keys
removed" fails on repeated insertion of a removed key. -/
theorem size_formula_counterexample :
    mlen (minsert hashId (mremove hashId (minsert hashId
        (mempty : HashMap Nat Nat) 0 5) 0) 0 5) = 1
    ∧ ([0, 0] : List Nat).dedup.length = 1
    ∧ ([0] : List Nat).dedup.length = 1
    ∧ mlen (minsert hashId (mremove hashId (minsert hashId
        (mempty : HashMap Nat Nat) 0 5) 0) 0 5)
      ≠ ([0, 0] : List Nat).dedup.length - ([0] : List Nat).dedup.length := by
  refine ⟨rfl, by decide, by decide, ?_⟩
  intro hh
  rw [show (([0, 0] : List Nat).dedup.length - ([0] : List Nat).dedup.length) = 0
      from by decide] at hh
  exact absurd hh (by decide)

/-- C6: snapshot/frame — capturing a map and performing a single insert or
remove (producing a new map value) leaves every `get` on the captured map
exactly what it was before the operation.  In this pure-value model no node
is ever mutated, so the old version's lookups are unchanged by
construction. -/
theorem snapshot_old_root_unaffected (hf : K → Nat) (m : HashMap K V) (k : K) (v : V)
    (kr k2 : K) (r : Option V) (h : mget hf m k2 = r) :
    (fun _ => mget hf m k2) (minsert hf m k v) = r
    ∧ (fun _ => mget hf m k2) (mremove hf m kr) = r :=
  ⟨h, h⟩

theorem snapshot_witness :
    mget hashId (minsert hashId (mempty : HashMap Nat Nat) 1 2) 1 = some 2
    ∧ ((fun _ => mget hashId (minsert hashId (mempty : HashMap Nat Nat) 1 2) 1)
        (minsert hashId (minsert hashId (mempty : HashMap Nat Nat) 1 2) 3 4) = some 2
      ∧ (fun _ => mget hashId (minsert hashId (mempty : HashMap Nat Nat) 1 2) 1)
        (mremove hashId (minsert hashId (mempty : HashMap Nat Nat) 1 2) 1) = some 2) :=
  ⟨rfl, snapshot_old_root_unaffected hashId
    (minsert hashId (mempty : HashMap Nat Nat) 1 2) 3 4 1 1 (some 2) rfl⟩

/-- C7: a key that is not present is reported through an explicit not-found
result, never an error: `get` returns none, `remove` leaves the size
unchanged, and the engine-level remove returns size delta 0; every map
operation in the model is a total function. -/
theorem absent_key_reports_absence (hf : K → Nat) (m : HashMap K V)
    (hinv : MapInv hf m) (k : K) (hk : k ∉ mkeys m) :
    mget hf m k = none
    ∧ (mremove hf m k).size = m.size
    ∧ (∀ t, m.root = some t → (removeN t k (hf k) 0).2 = 0) := by
  have hnone : mget hf m k = none := by
    have hiff := mget_isSome_iff_mem hf m hinv.wf k
    cases hg : mget hf m k with
    | none => rfl
    | some w =>
      exfalso
      exact hk (hiff.mp (by rw [hg]; rfl))
  refine ⟨hnone, ?_, ?_⟩
  · have hsz := (mremove_spec hf m hinv k).2.2
    rw [hnone] at hsz
    simpa using hsz
  · intro t ht
    have hwf : WF hf 0 t := by
      have hw := hinv.wf
      rw [ht] at hw
      exact hw
    rcases removeN_spec hf k hwf with ⟨_, _, rDelta, _, _⟩
    rw [rDelta]
    have hlt : (lookupN t k (hf k) 0).isSome = false := by
      have hl := hnone
      rw [mget_eq_lookupO, ht] at hl
      rw [show lookupO (some t) k (hf k) 0 = lookupN t k (hf k) 0 from rfl] at hl
      rw [hl]
      rfl
    rw [hlt]
    rfl

theorem absence_witness :
    MapInv hashId (minsert hashId (mempty : HashMap Nat Nat) 1 2)
    ∧ (3 : Nat) ∉ mkeys (minsert hashId (mempty : HashMap Nat Nat) 1 2)
    ∧ (mget hashId (minsert hashId (mempty : HashMap Nat Nat) 1 2) 3 = none
      ∧ (mremove hashId (minsert hashId (mempty : HashMap Nat Nat) 1 2) 3).size
          = (minsert hashId (mempty : HashMap Nat Nat) 1 2).size
      ∧ (∀ t, (minsert hashId (mempty : HashMap Nat Nat) 1 2).root = some t →
          (removeN t 3 (hashId 3) 0).2 = 0)) :=
  ⟨(minsert_spec hashId hashId_lt mempty (MapInv_empty hashId) 1 2).1, by decide,
    absent_key_reports_absence hashId (minsert hashId (mempty : HashMap Nat Nat) 1 2)
      ((minsert_spec hashId hashId_lt mempty (MapInv_empty hashId) 1 2).1) 3
      (by decide)⟩

/-- C8: `is_disjoint` returns true exactly when no element is contained in
both sets — `A.is_disjoint(B) ⇔ ¬∃x, A.contains(x) ∧ B.contains(x)` — for a
well-formed left operand (each set queried through its own keyed hash). -/
theorem is_disjoint_iff_no_common (hfA hfB : K → Nat) (A B : HashSet K)
    (hA : MapInv hfA A.map) :
    is_disjoint hfB A B = true
      ↔ ¬ ∃ x, scontains hfA A x = true ∧ scontains hfB B x = true := by
  rw [is_disjoint, List.all_eq_true]
  constructor
  · rintro hall ⟨x, hxA, hxB⟩
    have hxmem : x ∈ siter A := (mget_isSome_iff_mem hfA A.map hA.wf x).mp hxA
    have := hall x hxmem
    rw [hxB] at this
    simp at this
  · intro hno v hv
    cases hcb : scontains hfB B v with
    | false => rfl
    | true =>
      exfalso
      exact hno ⟨v, (mget_isSome_iff_mem hfA A.map hA.wf v).mpr hv, hcb⟩

theorem disjoint_witness :
    MapInv hashId (minsert hashId (mempty : HashMap Nat Unit) 1 ())
    ∧ (is_disjoint hashId (⟨minsert hashId (mempty : HashMap Nat Unit) 1 ()⟩ : HashSet Nat)
          (⟨minsert hashId (mempty : HashMap Nat Unit) 2 ()⟩ : HashSet Nat) = true
        ↔ ¬ ∃ x, scontains hashId
              (⟨minsert hashId (mempty : HashMap Nat Unit) 1 ()⟩ : HashSet Nat) x = true
            ∧ scontains hashId
              (⟨minsert hashId (mempty : HashMap Nat Unit) 2 ()⟩ : HashSet Nat) x = true) :=
  ⟨(minsert_spec hashId hashId_lt mempty (MapInv_empty hashId) 1 ()).1,
    is_disjoint_iff_no_common hashId hashId _ _
      ((minsert_spec hashId hashId_lt mempty (MapInv_empty hashId) 1 ()).1)⟩

/-- C9: subset reflexivity — `A.is_subset(A)` is true for every well-formed
set: every element produced by iterating `A` satisfies `A.contains`. -/
theorem is_subset_self (hf : K → Nat) (A : HashSet K) (hA : MapInv hf A.map) :
    is_subset hf A A = true := by
  rw [is_subset, List.all_eq_true]
  intro v hv
  exact (mget_isSome_iff_mem hf A.map hA.wf v).mpr hv

theorem subset_witness :
    MapInv hashId (minsert hashId (mempty : HashMap Nat Unit) 7 ())
    ∧ is_subset hashId (⟨minsert hashId (mempty : HashMap Nat Unit) 7 ()⟩ : HashSet Nat)
        (⟨minsert hashId (mempty : HashMap Nat Unit) 7 ()⟩ : HashSet Nat) = true :=
  ⟨(minsert_spec hashId hashId_lt mempty (MapInv_empty hashId) 7 ()).1,
    is_subset_self hashId _
      ((minsert_spec hashId hashId_lt mempty (MapInv_empty hashId) 7 ()).1)⟩

/-- C10: the `HAMT::find` loop terminates on every (finite) trie: running the
fuel-indexed version of the loop with `height + 1` units of fuel never runs
out and computes exactly `HAMT.find`, for every key and every hash — each
`Branches` iteration descends into a child node and a `Buckets` node ends the
loop. -/
theorem find_loop_terminates (t : HAMT K V) (key : K) (hash : Nat) :
    findFuel (heightH t + 1) t key hash hash = some (HAMT.find t key hash) :=
  findFuel_eq_of_height_lt _ t key hash hash (Nat.lt_succ_self _)

end Puc

